import Mathlib

/-!
Verification of the preset storage and import core of the ExpandedPresets
BakkesMod plugin (src/PresetManager.cpp, src/PresetTypes.h,
src/ExpandedPresetsPlugin.cpp), as a shallow embedding.

Modelling conventions:
* C++ `std::string` is `List Char` (named `Str` below).
* C++ `float` is `ℚ`.  The 3-decimal `std::fixed` serialization is modelled
  as rounding to the nearest thousandth (`roundHalfUp`); C++ rounds the
  nearest representable binary float with ties to even, which agrees with
  the rational model away from exact half-thousandth ties.
* `std::getline(stream, tok, delim)` loops are modelled by `getlineSplit`,
  which reproduces getline's termination behaviour: the final getline at
  end-of-input extracts nothing and fails, so a trailing delimiter does not
  produce a trailing empty token, and empty input produces no token.
* `std::stof` is modelled by `parseFloatModel`, restricted to plain decimal
  notation (optional sign, digits, optional fraction; prefix parse, leading
  whitespace skipped).  Hexadecimal, exponent, infinity/NaN spellings and
  the out-of-range error are outside the model; none of the formats at
  issue produce them.
* File-system effects are a small explicit environment `Env`; operations
  that can throw across the public boundary (the plain
  `std::filesystem::create_directories` overload throws on failure) return
  `Except FsError`.
-/

/-- Characters of a C++ `std::string`. -/
abbrev Str := List Char

/-- String literal helper. -/
def strChars (s : String) : Str := s.toList

/-- The whitespace set of `TrimWhitespace` in PresetManager.cpp
(`find_first_not_of(" \t\r\n")`): space, tab, carriage return, newline. -/
def isTrimWs (c : Char) : Bool :=
  c = ' ' || c = '\t' || c = '\r' || c = '\n'

/-- `TrimWhitespace` (PresetManager.cpp lines 12-21): remove leading and
trailing characters of the set `" \t\r\n"`; all-whitespace input becomes
empty.  Modelled as right trim then left trim, which coincides with the
`find_first_not_of`/`find_last_not_of` substring computation. -/
def TrimWhitespace (s : Str) : Str :=
  ((s.reverse.dropWhile isTrimWs).reverse).dropWhile isTrimWs

/-- One `while (std::getline(stream, token, d))` loop, accumulator version.
`acc` is the part of the current token already consumed.  When the input
ends, the pending token is yielded; when a delimiter is consumed and the
rest is empty, the next getline extracts nothing and fails, so no further
token is yielded. -/
def getlineSplitAux (d : Char) : Str → Str → List Str
  | [], acc => [acc]
  | c :: cs, acc =>
    if c = d then
      acc :: (if cs.isEmpty then [] else getlineSplitAux d cs [])
    else
      getlineSplitAux d cs (acc ++ [c])

/-- Tokens produced by a `while (std::getline(stream, token, d))` loop over
the text `s`: on empty input the first getline already fails and no token is
produced. -/
def getlineSplit (d : Char) (s : Str) : List Str :=
  if s.isEmpty then [] else getlineSplitAux d s []

/-- Full delimiter split (accumulator version): every field is kept,
including a trailing empty field after a final delimiter.  This is the
reference splitter the specification describes. -/
def splitKeepAllAux (d : Char) : Str → Str → List Str
  | [], acc => [acc]
  | c :: cs, acc =>
    if c = d then acc :: splitKeepAllAux d cs []
    else splitKeepAllAux d cs (acc ++ [c])

/-- Full delimiter split, preserving empty fields between consecutive
delimiters and a trailing empty field when the text ends with the
delimiter. -/
def splitKeepAll (d : Char) (s : Str) : List Str :=
  splitKeepAllAux d s []

/-- The whitespace set of C `isspace`, used by `std::stof` before the
number: space, tab, newline, vertical tab, form feed, carriage return. -/
def isSpaceChar (c : Char) : Bool :=
  c = ' ' || c = '\t' || c = '\n' || c = '\r' || c.toNat = 11 || c.toNat = 12

/-- Numeric value of a decimal digit character. -/
def digitToNat (c : Char) : ℕ := c.toNat - 48

/-- Value of a string of decimal digits, most significant first. -/
def digitsVal (l : Str) : ℕ := l.foldl (fun a c => 10 * a + digitToNat c) 0

/-- Model of `std::stof` restricted to plain decimal notation: skip leading
whitespace, an optional sign, then digits with an optional fractional part;
the longest such prefix is converted and the rest of the string is ignored.
`none` models the `std::invalid_argument` exception thrown when no digit is
found (caught by `ParseColorToken`). -/
def parseFloatModel (input : Str) : Option ℚ :=
  let l := input.dropWhile isSpaceChar
  let signNeg : Bool := l.head? = some '-'
  let l1 := if l.head? = some '-' || l.head? = some '+' then l.tail else l
  let ip := l1.takeWhile Char.isDigit
  let l2 := l1.dropWhile Char.isDigit
  let fp :=
    match l2 with
    | '.' :: r => r.takeWhile Char.isDigit
    | _ => []
  if ip.isEmpty && fp.isEmpty then none
  else
    let mag : ℚ := (digitsVal ip : ℚ) + (digitsVal fp : ℚ) / 10 ^ fp.length
    some (if signNeg then -mag else mag)

/-- `PresetPaintColor` (PresetTypes.h lines 6-16): three channels, each
defaulted to 0. -/
structure PresetPaintColor where
  r : ℚ := 0
  g : ℚ := 0
  b : ℚ := 0
  deriving DecidableEq

/-- `PresetCustomization` (PresetTypes.h lines 18-27) with its defaults:
primary 0.18/0.18/0.18, accent 0.9/0.35/0.15, labels Octane/None/OEM, both
finish flags false. -/
structure PresetCustomization where
  primaryColor : PresetPaintColor := ⟨9/50, 9/50, 9/50⟩
  accentColor : PresetPaintColor := ⟨9/10, 7/20, 3/20⟩
  carLabel : Str := strChars "Octane"
  decalLabel : Str := strChars "None"
  wheelsLabel : Str := strChars "OEM"
  paintFinishMatte : Bool := false
  paintFinishPearlescent : Bool := false
  deriving DecidableEq

/-- `CustomPreset` (PresetTypes.h lines 29-34). -/
structure CustomPreset where
  name : Str := []
  loadoutCode : Str := []
  customization : PresetCustomization := {}
  deriving DecidableEq

/-- Per-component body of the `ParseColorToken` loop (PresetManager.cpp
lines 310-322): `std::stof` with the catch-all defaulting to 0, then
`std::max(0.0f, value)`, then the 0-255 scale inference for values above
1. -/
def normalizeComponent (component : Str) : ℚ :=
  let value : ℚ := (parseFloatModel component).getD 0
  let clamped : ℚ := max 0 value
  if clamped > 1 then clamped / 255 else clamped

/-- The indexed `while (std::getline(stream, component, ','))` loop of
`ParseColorToken` (PresetManager.cpp lines 308-331): component `0`, `1`, `2`
set channels `r`, `g`, `b`; later components are ignored. -/
def parseColorLoop : List Str → ℕ → PresetPaintColor → PresetPaintColor
  | [], _, color => color
  | component :: rest, index, color =>
    let normalized := normalizeComponent component
    let color2 :=
      if index = 0 then { color with r := normalized }
      else if index = 1 then { color with g := normalized }
      else if index = 2 then { color with b := normalized }
      else color
    parseColorLoop rest (index + 1) color2

/-- `PresetManager::ParseColorToken` (PresetManager.cpp lines 302-334). -/
def ParseColorToken (token : Str) : PresetPaintColor :=
  parseColorLoop (getlineSplit ',' token) 0 {}

/-- Decimal digit character. -/
def digitChar (n : ℕ) : Char := Char.ofNat (48 + n)

/-- Decimal rendering of a natural number, fuel-based so that it reduces
inside the kernel. -/
def natToCharsAux : ℕ → ℕ → Str → Str
  | 0, _, acc => acc
  | fuel + 1, n, acc =>
    if n < 10 then digitChar n :: acc
    else natToCharsAux fuel (n / 10) (digitChar (n % 10) :: acc)

/-- Decimal rendering of a natural number, most significant digit first. -/
def natToChars (n : ℕ) : Str := natToCharsAux (n + 1) n []

/-- Exactly three decimal digits, zero padded, for the fractional part of a
fixed 3-decimal rendering. -/
def threeDigits (n : ℕ) : Str :=
  [digitChar (n / 100 % 10), digitChar (n / 10 % 10), digitChar (n % 10)]

/-- Rounding to the nearest integer, halves up: the rational model of the
rounding performed by `std::fixed << std::setprecision(3)`. -/
def roundHalfUp (q : ℚ) : ℤ := (q + 1/2).floor

/-- Fixed 3-decimal rendering of one channel, the rational model of
`stream << std::fixed << std::setprecision(3) << value`. -/
def fmtFixed3 (q : ℚ) : Str :=
  let n : ℤ := roundHalfUp (1000 * q)
  let sign : Str := if n < 0 then ['-'] else []
  let m : ℕ := n.natAbs
  sign ++ natToChars (m / 1000) ++ '.' :: threeDigits (m % 1000)

/-- `PresetManager::SerializeColorToken` (PresetManager.cpp lines 336-344):
`"r,g,b"` with each channel at fixed 3-decimal precision. -/
def SerializeColorToken (color : PresetPaintColor) : Str :=
  fmtFixed3 color.r ++ ',' :: (fmtFixed3 color.g ++ ',' :: fmtFixed3 color.b)

/-- `PresetManager::FindPresetIndex` (PresetManager.cpp lines 194-207):
index of the first preset with the given name, or the collection size when
none matches. -/
def FindPresetIndex (presets : List CustomPreset) (name : Str) : ℕ :=
  match presets with
  | [] => 0
  | p :: ps => if p.name = name then 0 else FindPresetIndex ps name + 1

/-- `PresetManager::AddOrUpdatePreset` (PresetManager.cpp lines 209-220):
replace in place when the name exists, otherwise append. -/
def AddOrUpdatePreset (presets : List CustomPreset) (preset : CustomPreset) :
    List CustomPreset :=
  let index := FindPresetIndex presets preset.name
  if presets.length ≤ index then presets ++ [preset] else presets.set index preset

/-- `PresetManager::TokenizeLine` (PresetManager.cpp lines 289-300): a
`std::getline` loop over `'|'`. -/
def TokenizeLine (line : Str) : List Str := getlineSplit '|' line

/-- Boolean field decoding of the storage format (PresetManager.cpp lines
133 and 137): `"1"`, `"true"` or the given literal word mean true. -/
def isTrueToken (t : Str) (word : Str) : Bool :=
  t = ['1'] || t = strChars "true" || t = word

/-- The token-to-record part of the `LoadFromStorage` loop body
(PresetManager.cpp lines 107-138): fields from position 3 onward each
override one more customization attribute in order. -/
def ApplyStorageTokens (tokens : List Str) : CustomPreset :=
  { name := TrimWhitespace (tokens.getD 0 []),
    loadoutCode := TrimWhitespace (tokens.getD 1 []),
    customization :=
      { primaryColor := if 3 ≤ tokens.length then ParseColorToken (tokens.getD 2 []) else ⟨9/50, 9/50, 9/50⟩,
        accentColor := if 4 ≤ tokens.length then ParseColorToken (tokens.getD 3 []) else ⟨9/10, 7/20, 3/20⟩,
        carLabel := if 5 ≤ tokens.length then TrimWhitespace (tokens.getD 4 []) else strChars "Octane",
        decalLabel := if 6 ≤ tokens.length then TrimWhitespace (tokens.getD 5 []) else strChars "None",
        wheelsLabel := if 7 ≤ tokens.length then TrimWhitespace (tokens.getD 6 []) else strChars "OEM",
        paintFinishMatte := if 8 ≤ tokens.length then isTrueToken (tokens.getD 7 []) (strChars "matte") else false,
        paintFinishPearlescent := if 9 ≤ tokens.length then isTrueToken (tokens.getD 8 []) (strChars "pearlescent") else false } }

/-- One iteration of the `LoadFromStorage` line loop (PresetManager.cpp
lines 93-141): trim, skip blank and `#` lines, tokenize, require at least
two fields, build the record. -/
def ParseStorageLine (raw : Str) : Option CustomPreset :=
  let line := TrimWhitespace raw
  if line.isEmpty then none
  else if line.head? = some '#' then none
  else
    let tokens := TokenizeLine line
    if tokens.length < 2 then none
    else some (ApplyStorageTokens tokens)

/-- One record line as `SaveToStorage` writes it (PresetManager.cpp lines
156-165): nine `'|'`-separated fields, flags as `'1'`/`'0'`. -/
def SerializePresetLine (p : CustomPreset) : Str :=
  p.name ++ '|' ::
    (p.loadoutCode ++ '|' ::
      (SerializeColorToken p.customization.primaryColor ++ '|' ::
        (SerializeColorToken p.customization.accentColor ++ '|' ::
          (p.customization.carLabel ++ '|' ::
            (p.customization.decalLabel ++ '|' ::
              (p.customization.wheelsLabel ++ '|' ::
                ((if p.customization.paintFinishMatte then ['1'] else ['0']) ++ '|' ::
                  (if p.customization.paintFinishPearlescent then ['1'] else ['0']))))))))

/-- The full storage file text `SaveToStorage` writes: one line per record
in collection order, each ended by `'\n'`. -/
def SerializeStorage (presets : List CustomPreset) : Str :=
  presets.foldr (fun p acc => SerializePresetLine p ++ '\n' :: acc) []

/-- Failure that escapes the core as a C++ exception: the plain
`std::filesystem::create_directories` overload used by
`EnsureStorageDirectory` throws `filesystem_error` when the directory
cannot be created. -/
inductive FsError where
  | createDirectoriesFailed
  deriving DecidableEq

/-- The file-system facts the core consults, as an explicit environment:
whether the vanilla presets path is empty/exists/opens and its text, the
storage file's readable content (none = `std::ifstream` fails), whether the
storage directory's parent path is empty, whether the storage directory
exists and can be created, whether the storage file opens for writing, and
the catalog file's content for `ImportFromFile`. -/
structure Env where
  vanillaPathEmpty : Bool := false
  vanillaExists : Bool := true
  vanillaOpenable : Bool := true
  vanillaContent : Str := []
  storageFile : Option Str := none
  storageParentEmpty : Bool := false
  storageDirExists : Bool := true
  storageDirCreatable : Bool := true
  storageOpenableForWrite : Bool := true
  catalogFile : Option Str := none
  deriving DecidableEq

/-- `PresetManager::EnsureStorageDirectory` (PresetManager.cpp lines
280-287): create the parent directory when it is named and missing.  The
non-error_code `create_directories` overload throws on failure, modelled as
`.error`. -/
def EnsureStorageDirectory (env : Env) : Except FsError Env :=
  if !env.storageParentEmpty && !env.storageDirExists then
    if env.storageDirCreatable then .ok { env with storageDirExists := true }
    else .error .createDirectoriesFailed
  else .ok env

/-- `PresetManager::SaveToStorage` (PresetManager.cpp lines 144-167):
ensure the directory, truncate-open the storage file (a failed open is
logged and the call returns), else write every record line.  The method is
`const`: the record collection is passed through unchanged. -/
def SaveToStorage (env : Env) (presets : List CustomPreset) :
    Except FsError (Env × List CustomPreset × List String) :=
  match EnsureStorageDirectory env with
  | .error e => .error e
  | .ok env2 =>
    if !env2.storageOpenableForWrite then
      .ok (env2, presets,
        ["ExpandedPresets: Failed to open storage file for writing."])
    else
      .ok ({ env2 with storageFile := some (SerializeStorage presets) }, presets, [])

/-- The delimiter set of the vanilla format (PresetManager.cpp line 61,
`find_last_of("\t ")`). -/
def isNameDelim (c : Char) : Bool := c = '\t' || c = ' '

/-- Index of the first character satisfying a predicate. -/
def findFirstIdx (p : Char → Bool) : Str → Option ℕ
  | [] => none
  | c :: cs => if p c then some 0 else (findFirstIdx p cs).map (· + 1)

/-- Index of the last tab-or-space character (`find_last_of("\t ")`),
computed as the first match in the reversed string. -/
def findLastDelimIdx (line : Str) : Option ℕ :=
  match findFirstIdx isNameDelim line.reverse with
  | some i => some (line.length - 1 - i)
  | none => none

/-- One iteration of the `RefreshFromVanillaPresets` line loop
(PresetManager.cpp lines 53-76): trim, skip blank and `#` lines, split at
the last tab/space, trim both halves, require both non-empty. -/
def ParseVanillaLine (raw : Str) : Option CustomPreset :=
  let line := TrimWhitespace raw
  if line.isEmpty then none
  else if line.head? = some '#' then none
  else
    match findLastDelimIdx line with
    | none => none
    | some pos =>
      let name := TrimWhitespace (line.take pos)
      let code := TrimWhitespace (line.drop (pos + 1))
      if name.isEmpty || code.isEmpty then none
      else some { name := name, loadoutCode := code }

/-- Folding a parsed line stream into the store, as both file-reading loops
do: valid lines are upserted, the rest are skipped. -/
def foldParsedLines (parse : Str → Option CustomPreset)
    (init : List CustomPreset) (lines : List Str) : List CustomPreset :=
  lines.foldl
    (fun acc line =>
      match parse line with
      | some p => AddOrUpdatePreset acc p
      | none => acc) init

/-- `PresetManager::RefreshFromVanillaPresets` (PresetManager.cpp lines
35-77): clear the store, then (when the vanilla file is found and opens)
upsert every valid line; otherwise log and leave the store empty.  The
prior store contents are discarded in every branch. -/
def RefreshFromVanillaPresets (env : Env) (_prior : List CustomPreset) :
    List CustomPreset × List String :=
  if env.vanillaPathEmpty || !env.vanillaExists then
    ([], ["ExpandedPresets: Could not find vanilla presets.data file to import presets."])
  else if !env.vanillaOpenable then
    ([], ["ExpandedPresets: Failed to open vanilla presets file."])
  else
    (foldParsedLines ParseVanillaLine [] (getlineSplit '\n' env.vanillaContent), [])

/-- `PresetManager::LoadFromStorage` (PresetManager.cpp lines 79-142):
clear the store; when the storage file does not open, log, import the
vanilla presets and immediately save them (the save can throw through
`EnsureStorageDirectory`); otherwise parse the file line by line. -/
def LoadFromStorage (env : Env) (_prior : List CustomPreset) :
    Except FsError (Env × List CustomPreset × List String) :=
  match env.storageFile with
  | none =>
    let fallback := RefreshFromVanillaPresets env []
    match SaveToStorage env fallback.1 with
    | .error e => .error e
    | .ok (env2, saved, saveLogs) =>
      .ok (env2, saved,
        "ExpandedPresets: No stored presets were found, importing from presets.data instead."
          :: fallback.2 ++ saveLogs)
  | some content =>
    .ok (env, foldParsedLines ParseStorageLine [] (getlineSplit '\n' content), [])

/-- One incoming record of an import with an overwrite flag: apply an
existing name only when overwriting (replace in place, counted), always add
a fresh name (appended, counted); a skipped record changes nothing and is
not counted. -/
def ImportStep (overwriteExisting : Bool)
    (acc : List CustomPreset × ℕ) (incoming : CustomPreset) :
    List CustomPreset × ℕ :=
  let index := FindPresetIndex acc.1 incoming.name
  if index < acc.1.length then
    if overwriteExisting then (acc.1.set index incoming, acc.2 + 1) else acc
  else (acc.1 ++ [incoming], acc.2 + 1)

/-- Modelled from the spec: `PresetManager::ImportFromFile(path,
overwriteExisting)` is called by `ExpandedPresetsPlugin::ImportBakkesPluginsCatalog`
but its definition is not among the repository's files.  Following spec
§4.4: parse a persisted-format file; for each valid record, apply it only
when its name is fresh or `overwriteExisting` is set; return the number of
records actually added or overwritten; on a missing file log and return 0
without raising. -/
def ImportFromFile (env : Env) (presets : List CustomPreset)
    (overwriteExisting : Bool) : List CustomPreset × ℕ × List String :=
  match env.catalogFile with
  | none => (presets, 0, ["ExpandedPresets: Catalog file not found."])
  | some content =>
    let records := (getlineSplit '\n' content).filterMap ParseStorageLine
    let result := records.foldl (ImportStep overwriteExisting) (presets, 0)
    (result.1, result.2, [])

/-! ### Whitespace trimming lemmas -/

theorem dropWhile_append_of_forall {p : Char → Bool} {a : Str} (b : Str)
    (h : ∀ c ∈ a, p c = true) : (a ++ b).dropWhile p = b.dropWhile p := by
  induction a with
  | nil => rfl
  | cons x xs ih =>
    have hx : p x = true := h x (by simp)
    simpa [List.dropWhile_cons, hx] using ih (fun c hc => h c (by simp [hc]))

theorem dropWhile_eq_self_of_head {p : Char → Bool} {s : Str}
    (h : ∀ x, s.head? = some x → p x = false) : s.dropWhile p = s := by
  cases s with
  | nil => rfl
  | cons x xs => simp [List.dropWhile_cons, h x rfl]

theorem head?_dropWhile_not {p : Char → Bool} (l : Str) :
    ∀ x, (l.dropWhile p).head? = some x → p x = false := by
  induction l with
  | nil => simp
  | cons a as ih =>
    intro x hx
    by_cases h : p a
    · exact ih x (by simpa [List.dropWhile_cons, h] using hx)
    · rw [List.dropWhile_cons, if_neg (by simp [h])] at hx
      simp only [List.head?_cons, Option.some.injEq] at hx
      simpa [hx] using h

theorem getLast?_dropWhile {p : Char → Bool} (l : Str)
    (h : l.dropWhile p ≠ []) : (l.dropWhile p).getLast? = l.getLast? := by
  induction l with
  | nil => simp at h
  | cons a as ih =>
    by_cases hp : p a
    · rw [List.dropWhile_cons, if_pos (by simp [hp])] at h ⊢
      have hne : as ≠ [] := by
        intro hcon
        simp [hcon] at h
      rw [ih h]
      cases as with
      | nil => exact absurd rfl hne
      | cons b bs => rw [List.getLast?_cons_cons]
    · rw [List.dropWhile_cons, if_neg (by simp [hp])]

theorem trimWhitespace_eq_self {s : Str}
    (h1 : ∀ x, s.head? = some x → isTrimWs x = false)
    (h2 : ∀ x, s.getLast? = some x → isTrimWs x = false) : TrimWhitespace s = s := by
  unfold TrimWhitespace
  have hrev : s.reverse.dropWhile isTrimWs = s.reverse := by
    apply dropWhile_eq_self_of_head
    intro x hx
    exact h2 x (by simpa [List.head?_reverse] using hx)
  rw [hrev, List.reverse_reverse]
  exact dropWhile_eq_self_of_head h1

theorem trimWhitespace_append_ws {s t : Str} (h : ∀ c ∈ t, isTrimWs c = true) :
    TrimWhitespace (s ++ t) = TrimWhitespace s := by
  unfold TrimWhitespace
  rw [List.reverse_append,
    dropWhile_append_of_forall s.reverse (fun c hc => h c (by simpa using hc))]

/-- A string is trim-stable: trimming does not change it. -/
def IsTrimmed (s : Str) : Prop := TrimWhitespace s = s

instance (s : Str) : Decidable (IsTrimmed s) := by
  unfold IsTrimmed
  infer_instance

theorem isTrimmed_trimWhitespace (s : Str) : IsTrimmed (TrimWhitespace s) := by
  unfold IsTrimmed
  by_cases h : TrimWhitespace s = []
  · rw [h]; rfl
  · apply trimWhitespace_eq_self
    · intro x hx
      exact head?_dropWhile_not _ x hx
    · intro x hx
      unfold TrimWhitespace at h hx
      rw [getLast?_dropWhile _ h] at hx
      rw [List.getLast?_reverse] at hx
      exact head?_dropWhile_not _ x hx

/-! ### getline-loop splitting lemmas -/

theorem getlineSplitAux_no_delim {d : Char} {t : Str} (h : ∀ c ∈ t, ¬c = d) :
    ∀ acc, getlineSplitAux d t acc = [acc ++ t] := by
  induction t with
  | nil => intro acc; simp [getlineSplitAux]
  | cons c cs ih =>
    intro acc
    have hc : ¬c = d := h c (by simp)
    rw [getlineSplitAux, if_neg hc, ih (fun x hx => h x (by simp [hx]))]
    simp

theorem getlineSplitAux_delim_append {d : Char} {t : Str} (h : ∀ c ∈ t, ¬c = d) :
    ∀ acc l, getlineSplitAux d (t ++ d :: l) acc =
      (acc ++ t) :: (if l.isEmpty then [] else getlineSplitAux d l []) := by
  induction t with
  | nil => intro acc l; simp [getlineSplitAux]
  | cons c cs ih =>
    intro acc l
    have hc : ¬c = d := h c (by simp)
    rw [List.cons_append, getlineSplitAux, if_neg hc,
      ih (fun x hx => h x (by simp [hx]))]
    simp

theorem splitKeepAllAux_eq (d : Char) : ∀ (l acc : Str),
    splitKeepAllAux d l acc =
      getlineSplitAux d l acc ++ (if l.getLast? = some d then [[]] else []) := by
  intro l
  induction l with
  | nil => intro acc; simp [splitKeepAllAux, getlineSplitAux]
  | cons c cs ih =>
    intro acc
    cases cs with
    | nil =>
      by_cases hc : c = d <;>
        simp [splitKeepAllAux, getlineSplitAux, hc]
    | cons c2 cs2 =>
      by_cases hc : c = d
      · rw [splitKeepAllAux, if_pos hc, getlineSplitAux, if_pos hc, ih]
        simp [List.getLast?_cons_cons]
      · rw [splitKeepAllAux, if_neg hc, getlineSplitAux, if_neg hc, ih]
        simp [List.getLast?_cons_cons]

theorem splitKeepAll_eq_getlineSplit (d : Char) (l : Str) (h : l ≠ []) :
    splitKeepAll d l =
      getlineSplit d l ++ (if l.getLast? = some d then [[]] else []) := by
  unfold splitKeepAll getlineSplit
  rw [if_neg (by simpa using h), splitKeepAllAux_eq]

/-! ### Store lookup and upsert lemmas -/

theorem findPresetIndex_le_length (ps : List CustomPreset) (nm : Str) :
    FindPresetIndex ps nm ≤ ps.length := by
  induction ps with
  | nil => simp [FindPresetIndex]
  | cons p rest ih =>
    rw [FindPresetIndex]
    by_cases h : p.name = nm <;> simp [h, Nat.succ_le_succ ih]

theorem findPresetIndex_lt_iff (ps : List CustomPreset) (nm : Str) :
    FindPresetIndex ps nm < ps.length ↔ ∃ p ∈ ps, p.name = nm := by
  induction ps with
  | nil => simp [FindPresetIndex]
  | cons p rest ih =>
    rw [FindPresetIndex]
    by_cases h : p.name = nm
    · simp [h]
    · simp only [if_neg h, List.length_cons, Nat.add_lt_add_iff_right, ih,
        List.mem_cons]
      constructor
      · rintro ⟨q, hq, hqn⟩
        exact ⟨q, Or.inr hq, hqn⟩
      · rintro ⟨q, hq | hq, hqn⟩
        · exact absurd (hq ▸ hqn) h
        · exact ⟨q, hq, hqn⟩

theorem findPresetIndex_eq_length_of_not_mem {ps : List CustomPreset} {nm : Str}
    (h : ∀ p ∈ ps, p.name ≠ nm) : FindPresetIndex ps nm = ps.length := by
  have hle := findPresetIndex_le_length ps nm
  rcases Nat.lt_or_ge (FindPresetIndex ps nm) ps.length with hlt | hge
  · obtain ⟨p, hp, hpn⟩ := (findPresetIndex_lt_iff ps nm).mp hlt
    exact absurd hpn (h p hp)
  · omega

theorem addOrUpdate_append_of_not_mem {ps : List CustomPreset} {p : CustomPreset}
    (h : ∀ q ∈ ps, q.name ≠ p.name) : AddOrUpdatePreset ps p = ps ++ [p] := by
  unfold AddOrUpdatePreset
  rw [findPresetIndex_eq_length_of_not_mem h, if_pos (Nat.le_refl _)]

theorem mem_addOrUpdate {ps : List CustomPreset} {p q : CustomPreset}
    (h : q ∈ AddOrUpdatePreset ps p) : q ∈ ps ∨ q = p := by
  unfold AddOrUpdatePreset at h
  by_cases hl : ps.length ≤ FindPresetIndex ps p.name
  · rw [if_pos hl] at h
    simpa using h
  · rw [if_neg hl] at h
    exact List.mem_or_eq_of_mem_set h

theorem mem_foldParsedLines {parse : Str → Option CustomPreset} {lines : List Str}
    {init : List CustomPreset} {q : CustomPreset}
    (h : q ∈ foldParsedLines parse init lines) :
    q ∈ init ∨ ∃ line ∈ lines, parse line = some q := by
  induction lines generalizing init with
  | nil => exact Or.inl h
  | cons l ls ih =>
    rw [foldParsedLines, List.foldl_cons] at h
    cases hp : parse l with
    | none =>
      rw [hp] at h
      rcases ih h with h1 | ⟨line, hline, hsome⟩
      · exact Or.inl h1
      · exact Or.inr ⟨line, by simp [hline], hsome⟩
    | some p =>
      rw [hp] at h
      rcases ih h with h1 | ⟨line, hline, hsome⟩
      · rcases mem_addOrUpdate h1 with h2 | h2
        · exact Or.inl h2
        · exact Or.inr ⟨l, by simp, by rw [hp, h2]⟩
      · exact Or.inr ⟨line, by simp [hline], hsome⟩

/-! ### Digit and fixed-3-decimal formatting lemmas -/

theorem takeWhile_eq_self_of_forall {p : Char → Bool} {l : Str}
    (h : ∀ c ∈ l, p c = true) : l.takeWhile p = l := by
  induction l with
  | nil => rfl
  | cons c cs ih =>
    rw [List.takeWhile_cons, if_pos (h c (by simp)),
      ih (fun x hx => h x (by simp [hx]))]

theorem rat_floor_eq_int_floor (q : ℚ) : q.floor = ⌊q⌋ := rfl

theorem digitChar_facts {d : ℕ} (h : d < 10) :
    (digitChar d).isDigit = true ∧ digitChar d ≠ ',' ∧ digitChar d ≠ '|' ∧
      digitChar d ≠ '\n' ∧ isTrimWs (digitChar d) = false ∧
      isSpaceChar (digitChar d) = false ∧ digitChar d ≠ '-' ∧
      digitChar d ≠ '+' ∧ digitChar d ≠ '.' ∧ digitChar d ≠ '#' := by
  interval_cases d <;> refine ⟨by decide, by decide, by decide, by decide,
    by decide, by decide, by decide, by decide, by decide, by decide⟩

theorem digitToNat_digitChar {d : ℕ} (h : d < 10) : digitToNat (digitChar d) = d := by
  interval_cases d <;> decide

theorem digitsVal_threeDigits {k : ℕ} (h : k < 1000) : digitsVal (threeDigits k) = k := by
  unfold digitsVal threeDigits
  simp only [List.foldl_cons, List.foldl_nil]
  rw [digitToNat_digitChar (by omega), digitToNat_digitChar (by omega),
    digitToNat_digitChar (by omega)]
  omega

theorem threeDigits_mem {k : ℕ} {c : Char} (hc : c ∈ threeDigits k) :
    ∃ d, d < 10 ∧ c = digitChar d := by
  unfold threeDigits at hc
  simp only [List.mem_cons, List.not_mem_nil, or_false] at hc
  rcases hc with h | h | h
  exacts [⟨k / 100 % 10, by omega, h⟩, ⟨k / 10 % 10, by omega, h⟩,
    ⟨k % 10, by omega, h⟩]

theorem roundHalfUp_nonneg {q : ℚ} (h : 0 ≤ q) : 0 ≤ roundHalfUp q := by
  unfold roundHalfUp
  rw [rat_floor_eq_int_floor]
  exact Int.le_floor.mpr (by push_cast; linarith)

theorem roundHalfUp_le_of_le {q : ℚ} {N : ℤ} (h : q ≤ (N : ℚ)) : roundHalfUp q ≤ N := by
  unfold roundHalfUp
  rw [rat_floor_eq_int_floor]
  have h2 : (⌊(q + 1/2 : ℚ)⌋ : ℚ) ≤ (N : ℚ) + 1/2 := le_trans (Int.floor_le _) (by linarith)
  have h3 : (⌊(q + 1/2 : ℚ)⌋ : ℚ) < (N : ℚ) + 1 := by linarith
  exact_mod_cast Int.lt_add_one_iff.mp (by exact_mod_cast h3)

theorem roundHalfUp_div_close (q : ℚ) :
    |((roundHalfUp (1000 * q) : ℚ)) / 1000 - q| ≤ 1 / 2000 := by
  unfold roundHalfUp
  rw [rat_floor_eq_int_floor]
  have h1 : ((⌊(1000 * q + 1/2 : ℚ)⌋ : ℤ) : ℚ) ≤ 1000 * q + 1/2 := Int.floor_le _
  have h2 : 1000 * q + 1/2 - 1 < ((⌊(1000 * q + 1/2 : ℚ)⌋ : ℤ) : ℚ) :=
    Int.sub_one_lt_floor _
  rw [abs_le]
  constructor <;> [linarith; linarith]

theorem parseFloat_digit_dot_three {d0 : ℕ} (hd : d0 < 10) {k : ℕ} (hk : k < 1000) :
    parseFloatModel (digitChar d0 :: '.' :: threeDigits k) =
      some ((d0 : ℚ) + (k : ℚ) / 1000) := by
  obtain ⟨hdig, _, _, _, _, hsp, hminus, hplus, hdot, _⟩ := digitChar_facts hd
  have hthree : ∀ c ∈ threeDigits k, Char.isDigit c = true := by
    intro c hc
    obtain ⟨d, hd10, rfl⟩ := threeDigits_mem hc
    exact (digitChar_facts hd10).1
  have hip : List.takeWhile Char.isDigit (digitChar d0 :: '.' :: threeDigits k) =
      [digitChar d0] := by
    rw [List.takeWhile_cons, if_pos hdig, List.takeWhile_cons,
      if_neg (by decide)]
  have hdrop : List.dropWhile Char.isDigit (digitChar d0 :: '.' :: threeDigits k) =
      '.' :: threeDigits k := by
    rw [List.dropWhile_cons, if_pos hdig, List.dropWhile_cons,
      if_neg (by decide)]
  have hne1 : ((digitChar d0 :: '.' :: threeDigits k).head? = some '-') = False := by
    simp [hminus]
  have hne2 : ((digitChar d0 :: '.' :: threeDigits k).head? = some '+') = False := by
    simp [hplus]
  have hone : digitsVal [digitChar d0] = d0 := by
    unfold digitsVal
    simp [List.foldl_cons, digitToNat_digitChar hd]
  have hlen : (threeDigits k).length = 3 := rfl
  unfold parseFloatModel
  rw [dropWhile_eq_self_of_head (fun x hx => by
    simp only [List.head?_cons, Option.some.injEq] at hx
    exact hx ▸ hsp)]
  simp only [hne1, hne2, decide_False, Bool.or_self, Bool.false_eq_true,
    if_false, hip, hdrop, takeWhile_eq_self_of_forall hthree,
    digitsVal_threeDigits hk, hone, hlen, List.isEmpty_cons, Bool.false_and,
    Bool.false_eq_true]
  norm_num

theorem fmtFixed3_eval {q : ℚ} (h0 : 0 ≤ q) (h1 : q ≤ 1) :
    (∃ d0 < 10, ∃ k < 1000,
      fmtFixed3 q = digitChar d0 :: '.' :: threeDigits k ∧
        (d0 : ℚ) + (k : ℚ) / 1000 = ((roundHalfUp (1000 * q) : ℤ) : ℚ) / 1000) := by
  have hn0 : 0 ≤ roundHalfUp (1000 * q) := roundHalfUp_nonneg (by linarith)
  have hn1 : roundHalfUp (1000 * q) ≤ 1000 := roundHalfUp_le_of_le (by push_cast; linarith)
  simp only [fmtFixed3]
  rw [if_neg (by omega : ¬roundHalfUp (1000 * q) < 0)]
  have habs : ((roundHalfUp (1000 * q)).natAbs : ℤ) = roundHalfUp (1000 * q) :=
    Int.natAbs_of_nonneg hn0
  set m := (roundHalfUp (1000 * q)).natAbs with hm
  have hm1000 : m ≤ 1000 := by omega
  rcases Nat.lt_or_ge m 1000 with hlt | hge
  · refine ⟨0, by omega, m % 1000, by omega, ?_, ?_⟩
    · have hdiv : m / 1000 = 0 := by omega
      rw [hdiv]
      rfl
    · have hmod : m % 1000 = m := by omega
      rw [hmod, ← habs]
      push_cast
      ring
  · have hmeq : m = 1000 := by omega
    refine ⟨1, by omega, 0, by omega, ?_, ?_⟩
    · rw [hmeq]
      rfl
    · rw [← habs, hmeq]
      norm_num

theorem parseFloat_fmtFixed3 {q : ℚ} (h0 : 0 ≤ q) (h1 : q ≤ 1) :
    parseFloatModel (fmtFixed3 q) =
      some (((roundHalfUp (1000 * q) : ℤ) : ℚ) / 1000) := by
  obtain ⟨d0, hd0, k, hk, heq, hval⟩ := fmtFixed3_eval h0 h1
  rw [heq, parseFloat_digit_dot_three hd0 hk, hval]

theorem fmtFixed3_mem {q : ℚ} (h0 : 0 ≤ q) (h1 : q ≤ 1) {c : Char}
    (hc : c ∈ fmtFixed3 q) :
    c ≠ ',' ∧ c ≠ '|' ∧ c ≠ '\n' ∧ isTrimWs c = false := by
  obtain ⟨d0, hd0, k, hk, heq, -⟩ := fmtFixed3_eval h0 h1
  rw [heq] at hc
  simp only [List.mem_cons] at hc
  rcases hc with rfl | rfl | h
  · obtain ⟨-, h2, h3, h4, h5, -⟩ := digitChar_facts hd0
    exact ⟨h2, h3, h4, h5⟩
  · exact ⟨by decide, by decide, by decide, by decide⟩
  · obtain ⟨d, hd10, rfl⟩ := threeDigits_mem h
    obtain ⟨-, h2, h3, h4, h5, -⟩ := digitChar_facts hd10
    exact ⟨h2, h3, h4, h5⟩

theorem fmtFixed3_ne_nil {q : ℚ} (h0 : 0 ≤ q) (h1 : q ≤ 1) : fmtFixed3 q ≠ [] := by
  obtain ⟨d0, hd0, k, hk, heq, -⟩ := fmtFixed3_eval h0 h1
  rw [heq]
  exact List.cons_ne_nil _ _

/-! ### Color round trip and channel bounds -/

/-- A color with every channel rounded to the nearest thousandth: what
survives the 3-decimal serialization. -/
def roundColor3 (c : PresetPaintColor) : PresetPaintColor :=
  ⟨((roundHalfUp (1000 * c.r) : ℤ) : ℚ) / 1000,
    ((roundHalfUp (1000 * c.g) : ℤ) : ℚ) / 1000,
    ((roundHalfUp (1000 * c.b) : ℤ) : ℚ) / 1000⟩

/-- A preset with both colors rounded to the 3-decimal serialization grid;
all other fields unchanged. -/
def roundPreset3 (p : CustomPreset) : CustomPreset :=
  { p with customization :=
      { p.customization with
          primaryColor := roundColor3 p.customization.primaryColor,
          accentColor := roundColor3 p.customization.accentColor } }

/-- Both channels of a color lie in the unit interval. -/
def ColorIn01 (c : PresetPaintColor) : Prop :=
  0 ≤ c.r ∧ c.r ≤ 1 ∧ 0 ≤ c.g ∧ c.g ≤ 1 ∧ 0 ≤ c.b ∧ c.b ≤ 1

instance (c : PresetPaintColor) : Decidable (ColorIn01 c) := by
  unfold ColorIn01
  infer_instance

theorem normalizeComponent_fmtFixed3 {x : ℚ} (h0 : 0 ≤ x) (h1 : x ≤ 1) :
    normalizeComponent (fmtFixed3 x) = ((roundHalfUp (1000 * x) : ℤ) : ℚ) / 1000 := by
  have hn0 : 0 ≤ roundHalfUp (1000 * x) := roundHalfUp_nonneg (by linarith)
  have hn1 : roundHalfUp (1000 * x) ≤ 1000 := roundHalfUp_le_of_le (by push_cast; linarith)
  have hval : (0 : ℚ) ≤ ((roundHalfUp (1000 * x) : ℤ) : ℚ) / 1000 := by
    have : (0 : ℚ) ≤ ((roundHalfUp (1000 * x) : ℤ) : ℚ) := by exact_mod_cast hn0
    linarith
  have hle : ((roundHalfUp (1000 * x) : ℤ) : ℚ) / 1000 ≤ 1 := by
    have : ((roundHalfUp (1000 * x) : ℤ) : ℚ) ≤ 1000 := by exact_mod_cast hn1
    linarith
  unfold normalizeComponent
  rw [parseFloat_fmtFixed3 h0 h1]
  simp only [Option.getD_some]
  rw [max_eq_right hval, if_neg (by linarith)]

theorem getlineSplit_serializeColor {c : PresetPaintColor} (h : ColorIn01 c) :
    getlineSplit ',' (SerializeColorToken c) =
      [fmtFixed3 c.r, fmtFixed3 c.g, fmtFixed3 c.b] := by
  obtain ⟨hr0, hr1, hg0, hg1, hb0, hb1⟩ := h
  have hfr : ∀ x ∈ fmtFixed3 c.r, ¬x = ',' := fun x hx => (fmtFixed3_mem hr0 hr1 hx).1
  have hfg : ∀ x ∈ fmtFixed3 c.g, ¬x = ',' := fun x hx => (fmtFixed3_mem hg0 hg1 hx).1
  have hfb : ∀ x ∈ fmtFixed3 c.b, ¬x = ',' := fun x hx => (fmtFixed3_mem hb0 hb1 hx).1
  have hner : fmtFixed3 c.r ≠ [] := fmtFixed3_ne_nil hr0 hr1
  have hneg : fmtFixed3 c.g ≠ [] := fmtFixed3_ne_nil hg0 hg1
  unfold SerializeColorToken getlineSplit
  rw [if_neg (by simp [hner])]
  rw [getlineSplitAux_delim_append hfr]
  rw [if_neg (by simp [hneg])]
  rw [getlineSplitAux_delim_append hfg]
  rw [if_neg (by simp [fmtFixed3_ne_nil hb0 hb1])]
  rw [getlineSplitAux_no_delim hfb]
  simp

theorem parseColorLoop_three (a b c : Str) (col : PresetPaintColor) :
    parseColorLoop [a, b, c] 0 col =
      ⟨normalizeComponent a, normalizeComponent b, normalizeComponent c⟩ := rfl

theorem parseColor_serializeColor {c : PresetPaintColor} (h : ColorIn01 c) :
    ParseColorToken (SerializeColorToken c) = roundColor3 c := by
  unfold ParseColorToken
  rw [getlineSplit_serializeColor h, parseColorLoop_three]
  obtain ⟨hr0, hr1, hg0, hg1, hb0, hb1⟩ := h
  unfold roundColor3
  rw [normalizeComponent_fmtFixed3 hr0 hr1, normalizeComponent_fmtFixed3 hg0 hg1,
    normalizeComponent_fmtFixed3 hb0 hb1]

theorem normalizeComponent_nonneg (comp : Str) : 0 ≤ normalizeComponent comp := by
  unfold normalizeComponent
  by_cases h : max 0 ((parseFloatModel comp).getD 0) > 1
  · rw [if_pos h]
    positivity
  · rw [if_neg h]
    exact le_max_left 0 _

theorem normalizeComponent_le_one {comp : Str}
    (h : (parseFloatModel comp).getD 0 ≤ 255) : normalizeComponent comp ≤ 1 := by
  unfold normalizeComponent
  have hmax : max 0 ((parseFloatModel comp).getD 0) ≤ 255 :=
    max_le (by norm_num) h
  by_cases hgt : max 0 ((parseFloatModel comp).getD 0) > 1
  · rw [if_pos hgt]
    linarith
  · rw [if_neg hgt]
    linarith

theorem parseColorLoop_pred (P : ℚ → Prop) :
    ∀ (comps : List Str) (idx : ℕ) (col : PresetPaintColor),
      (P col.r ∧ P col.g ∧ P col.b) →
      (∀ comp ∈ comps, P (normalizeComponent comp)) →
      P (parseColorLoop comps idx col).r ∧ P (parseColorLoop comps idx col).g ∧
        P (parseColorLoop comps idx col).b := by
  intro comps
  induction comps with
  | nil => intro idx col hcol _; exact hcol
  | cons comp rest ih =>
    intro idx col hcol hcomp
    rw [parseColorLoop]
    apply ih
    · have hn : P (normalizeComponent comp) := hcomp comp (by simp)
      obtain ⟨h1, h2, h3⟩ := hcol
      by_cases h0 : idx = 0
      · simp [h0, hn, h2, h3]
      · by_cases hi1 : idx = 1
        · simp [h0, hi1, hn, h1, h3]
        · by_cases hi2 : idx = 2
          · simp [h0, hi1, hi2, hn, h1, h2]
          · simp [h0, hi1, hi2, h1, h2, h3]
    · exact fun x hx => hcomp x (by simp [hx])

/-! ### Serialized storage lines -/

/-- A text field that survives the storage format unchanged: trim-stable
and free of the field delimiter and the line terminator. -/
def GoodField (s : Str) : Prop :=
  IsTrimmed s ∧ '|' ∉ s ∧ '\n' ∉ s

instance (s : Str) : Decidable (GoodField s) := by
  unfold GoodField
  infer_instance

/-- A preset the persisted format represents exactly (up to the 3-decimal
color rounding): good fields, a non-empty name that does not open a
comment, a non-empty loadout code, both colors in the unit interval. -/
def ValidPreset (p : CustomPreset) : Prop :=
  GoodField p.name ∧ p.name ≠ [] ∧ p.name.head? ≠ some '#' ∧
    GoodField p.loadoutCode ∧ p.loadoutCode ≠ [] ∧
    GoodField p.customization.carLabel ∧ GoodField p.customization.decalLabel ∧
    GoodField p.customization.wheelsLabel ∧
    ColorIn01 p.customization.primaryColor ∧ ColorIn01 p.customization.accentColor

instance (p : CustomPreset) : Decidable (ValidPreset p) := by
  unfold ValidPreset
  infer_instance

theorem serializeColor_mem {c : PresetPaintColor} (h : ColorIn01 c) {x : Char}
    (hx : x ∈ SerializeColorToken c) :
    x ≠ '|' ∧ x ≠ '\n' ∧ isTrimWs x = false := by
  obtain ⟨hr0, hr1, hg0, hg1, hb0, hb1⟩ := h
  unfold SerializeColorToken at hx
  simp only [List.mem_append, List.mem_cons] at hx
  rcases hx with hx | rfl | hx | rfl | hx
  · obtain ⟨-, h2, h3, h4⟩ := fmtFixed3_mem hr0 hr1 hx
    exact ⟨h2, h3, h4⟩
  · exact ⟨by decide, by decide, by decide⟩
  · obtain ⟨-, h2, h3, h4⟩ := fmtFixed3_mem hg0 hg1 hx
    exact ⟨h2, h3, h4⟩
  · exact ⟨by decide, by decide, by decide⟩
  · obtain ⟨-, h2, h3, h4⟩ := fmtFixed3_mem hb0 hb1 hx
    exact ⟨h2, h3, h4⟩

theorem flagChars_mem {b : Bool} {x : Char}
    (hx : x ∈ (if b then (['1'] : Str) else ['0'])) :
    x ≠ '|' ∧ x ≠ '\n' ∧ isTrimWs x = false := by
  cases b
  · simp at hx
    subst hx
    exact ⟨by decide, by decide, by decide⟩
  · simp at hx
    subst hx
    exact ⟨by decide, by decide, by decide⟩

theorem serializeColor_ne_nil {c : PresetPaintColor} (h : ColorIn01 c) :
    SerializeColorToken c ≠ [] := by
  unfold SerializeColorToken
  intro hcon
  exact fmtFixed3_ne_nil h.1 h.2.1 (List.append_eq_nil.mp hcon).1

theorem isEmpty_append_cons (x : Str) (c : Char) (y : Str) :
    (x ++ c :: y).isEmpty = false := by
  cases x <;> simp

theorem getLast?_cons_of_ne_nil {a : Char} {l : Str} (h : l ≠ []) :
    (a :: l).getLast? = l.getLast? := by
  cases l with
  | nil => exact absurd rfl h
  | cons b bs => exact List.getLast?_cons_cons

theorem serializePresetLine_mem {p : CustomPreset} (h : ValidPreset p) :
    ∀ x ∈ SerializePresetLine p, x ≠ '\n' := by
  obtain ⟨⟨-, -, h1⟩, -, -, ⟨-, -, h2⟩, -, ⟨-, -, h3⟩, ⟨-, -, h4⟩, ⟨-, -, h5⟩,
    hpc, hac⟩ := h
  intro x hx
  unfold SerializePresetLine at hx
  simp only [List.mem_append, List.mem_cons, List.not_mem_nil, or_false] at hx
  rcases hx with hx | rfl | hx | rfl | hx | rfl | hx | rfl | hx | rfl | hx | rfl |
    hx | rfl | hx | rfl | hx
  · exact ne_of_mem_of_not_mem hx h1
  · decide
  · exact ne_of_mem_of_not_mem hx h2
  · decide
  · exact (serializeColor_mem hpc hx).2.1
  · decide
  · exact (serializeColor_mem hac hx).2.1
  · decide
  · exact ne_of_mem_of_not_mem hx h3
  · decide
  · exact ne_of_mem_of_not_mem hx h4
  · decide
  · exact ne_of_mem_of_not_mem hx h5
  · decide
  · exact (flagChars_mem hx).2.1
  · decide
  · exact (flagChars_mem hx).2.1

theorem serializePresetLine_getLast? (p : CustomPreset) :
    ∃ c, (SerializePresetLine p).getLast? = some c ∧ isTrimWs c = false := by
  unfold SerializePresetLine
  rw [List.getLast?_append_cons, getLast?_cons_of_ne_nil (by simp),
    List.getLast?_append_cons, getLast?_cons_of_ne_nil (by simp),
    List.getLast?_append_cons, getLast?_cons_of_ne_nil (by simp),
    List.getLast?_append_cons, getLast?_cons_of_ne_nil (by simp),
    List.getLast?_append_cons, getLast?_cons_of_ne_nil (by simp),
    List.getLast?_append_cons, getLast?_cons_of_ne_nil (by simp),
    List.getLast?_append_cons,
    getLast?_cons_of_ne_nil (by cases p.customization.paintFinishPearlescent <;> simp),
    List.getLast?_append_cons,
    getLast?_cons_of_ne_nil (by cases p.customization.paintFinishPearlescent <;> simp)]
  cases p.customization.paintFinishPearlescent
  · exact ⟨'0', rfl, by decide⟩
  · exact ⟨'1', rfl, by decide⟩

theorem isTrimmed_head {s : Str} (h : IsTrimmed s) {x : Char}
    (hx : s.head? = some x) : isTrimWs x = false := by
  unfold IsTrimmed TrimWhitespace at h
  rw [← h] at hx
  exact head?_dropWhile_not _ x hx

theorem serializePresetLine_head? {p : CustomPreset} (h : ValidPreset p) :
    (SerializePresetLine p).head? = p.name.head? := by
  unfold SerializePresetLine
  rw [List.head?_append_of_ne_nil _ h.2.1]

theorem trim_serializePresetLine {p : CustomPreset} (h : ValidPreset p) :
    TrimWhitespace (SerializePresetLine p) = SerializePresetLine p := by
  apply trimWhitespace_eq_self
  · intro x hx
    rw [serializePresetLine_head? h] at hx
    exact isTrimmed_head h.1.1 hx
  · intro x hx
    obtain ⟨c, hc, hcw⟩ := serializePresetLine_getLast? p
    rw [hc] at hx
    cases hx
    exact hcw

theorem serializePresetLine_ne_nil {p : CustomPreset} (h : ValidPreset p) :
    SerializePresetLine p ≠ [] := by
  unfold SerializePresetLine
  intro hcon
  exact h.2.1 (List.append_eq_nil.mp hcon).1

theorem tokenizeLine_serializePresetLine {p : CustomPreset} (h : ValidPreset p) :
    TokenizeLine (SerializePresetLine p) =
      [p.name, p.loadoutCode,
        SerializeColorToken p.customization.primaryColor,
        SerializeColorToken p.customization.accentColor,
        p.customization.carLabel, p.customization.decalLabel,
        p.customization.wheelsLabel,
        (if p.customization.paintFinishMatte then ['1'] else ['0']),
        (if p.customization.paintFinishPearlescent then ['1'] else ['0'])] := by
  obtain ⟨⟨-, hn1, -⟩, hnn, -, ⟨-, hc1, -⟩, -, ⟨-, h31, -⟩, ⟨-, h41, -⟩,
    ⟨-, h51, -⟩, hpc, hac⟩ := h
  have hm1 : ∀ x ∈ p.name, ¬x = '|' := fun x hx => ne_of_mem_of_not_mem hx hn1
  have hm2 : ∀ x ∈ p.loadoutCode, ¬x = '|' := fun x hx => ne_of_mem_of_not_mem hx hc1
  have hm3 : ∀ x ∈ SerializeColorToken p.customization.primaryColor, ¬x = '|' :=
    fun x hx => (serializeColor_mem hpc hx).1
  have hm4 : ∀ x ∈ SerializeColorToken p.customization.accentColor, ¬x = '|' :=
    fun x hx => (serializeColor_mem hac hx).1
  have hm5 : ∀ x ∈ p.customization.carLabel, ¬x = '|' :=
    fun x hx => ne_of_mem_of_not_mem hx h31
  have hm6 : ∀ x ∈ p.customization.decalLabel, ¬x = '|' :=
    fun x hx => ne_of_mem_of_not_mem hx h41
  have hm7 : ∀ x ∈ p.customization.wheelsLabel, ¬x = '|' :=
    fun x hx => ne_of_mem_of_not_mem hx h51
  have hm8 : ∀ x ∈ (if p.customization.paintFinishMatte then (['1'] : Str) else ['0']),
      ¬x = '|' := fun x hx => (flagChars_mem hx).1
  have hm9 : ∀ x ∈ (if p.customization.paintFinishPearlescent then (['1'] : Str) else ['0']),
      ¬x = '|' := fun x hx => (flagChars_mem hx).1
  have hflag : (if p.customization.paintFinishPearlescent then (['1'] : Str) else ['0']) ≠ [] := by
    cases p.customization.paintFinishPearlescent <;> simp
  have hni : ∀ (x : Str) (c : Char) (y : Str), ¬((x ++ c :: y).isEmpty = true) := by
    intro x c y hcon
    rw [isEmpty_append_cons] at hcon
    exact Bool.false_ne_true hcon
  unfold TokenizeLine getlineSplit SerializePresetLine
  rw [if_neg (by simp [hnn])]
  rw [getlineSplitAux_delim_append hm1, if_neg (hni _ _ _)]
  rw [getlineSplitAux_delim_append hm2, if_neg (hni _ _ _)]
  rw [getlineSplitAux_delim_append hm3, if_neg (hni _ _ _)]
  rw [getlineSplitAux_delim_append hm4, if_neg (hni _ _ _)]
  rw [getlineSplitAux_delim_append hm5, if_neg (hni _ _ _)]
  rw [getlineSplitAux_delim_append hm6, if_neg (hni _ _ _)]
  rw [getlineSplitAux_delim_append hm7, if_neg (hni _ _ _)]
  rw [getlineSplitAux_delim_append hm8,
    if_neg (fun hcon => hflag (List.isEmpty_iff.mp hcon))]
  rw [getlineSplitAux_no_delim hm9]
  simp only [List.nil_append]

theorem isTrueToken_flag_matte (b : Bool) :
    isTrueToken (if b then (['1'] : Str) else ['0']) (strChars "matte") = b := by
  cases b <;> decide

theorem isTrueToken_flag_pearl (b : Bool) :
    isTrueToken (if b then (['1'] : Str) else ['0']) (strChars "pearlescent") = b := by
  cases b <;> decide

theorem applyStorageTokens_nine (t0 t1 t2 t3 t4 t5 t6 t7 t8 : Str) :
    ApplyStorageTokens [t0, t1, t2, t3, t4, t5, t6, t7, t8] =
      { name := TrimWhitespace t0, loadoutCode := TrimWhitespace t1,
        customization :=
          { primaryColor := ParseColorToken t2, accentColor := ParseColorToken t3,
            carLabel := TrimWhitespace t4, decalLabel := TrimWhitespace t5,
            wheelsLabel := TrimWhitespace t6,
            paintFinishMatte := isTrueToken t7 (strChars "matte"),
            paintFinishPearlescent := isTrueToken t8 (strChars "pearlescent") } } := rfl

theorem parseStorageLine_serialize {p : CustomPreset} (h : ValidPreset p) :
    ParseStorageLine (SerializePresetLine p) = some (roundPreset3 p) := by
  have hne : ¬((SerializePresetLine p).isEmpty = true) := by
    intro hcon
    exact serializePresetLine_ne_nil h (List.isEmpty_iff.mp hcon)
  have hhash : ¬((SerializePresetLine p).head? = some '#') := by
    rw [serializePresetLine_head? h]
    exact h.2.2.1
  have hlen : ¬((TokenizeLine (SerializePresetLine p)).length < 2) := by
    rw [tokenizeLine_serializePresetLine h]
    simp
  simp only [ParseStorageLine]
  rw [trim_serializePresetLine h, if_neg hne, if_neg hhash, if_neg hlen,
    tokenizeLine_serializePresetLine h, applyStorageTokens_nine]
  obtain ⟨⟨ht0, -, -⟩, -, -, ⟨ht1, -, -⟩, -, ⟨ht4, -, -⟩, ⟨ht5, -, -⟩,
    ⟨ht6, -, -⟩, hpc, hac⟩ := h
  rw [ht0, ht1, ht4, ht5, ht6, parseColor_serializeColor hpc,
    parseColor_serializeColor hac, isTrueToken_flag_matte, isTrueToken_flag_pearl]
  rfl

/-! ### The storage file as a whole -/

theorem serializeStorage_cons (p : CustomPreset) (rest : List CustomPreset) :
    SerializeStorage (p :: rest) =
      SerializePresetLine p ++ '\n' :: SerializeStorage rest := rfl

theorem serializeStorage_ne_nil (p : CustomPreset) (rest : List CustomPreset) :
    SerializeStorage (p :: rest) ≠ [] := by
  rw [serializeStorage_cons]
  intro hcon
  have := congrArg List.length hcon
  simp at this

theorem getlineSplit_serializeStorage :
    ∀ ps : List CustomPreset, (∀ p ∈ ps, ValidPreset p) →
      getlineSplit '\n' (SerializeStorage ps) = ps.map SerializePresetLine := by
  intro ps
  induction ps with
  | nil => intro _; rfl
  | cons p rest ih =>
    intro hv
    rw [serializeStorage_cons]
    unfold getlineSplit
    rw [if_neg (fun hcon => by
      rw [isEmpty_append_cons] at hcon
      exact Bool.false_ne_true hcon)]
    rw [getlineSplitAux_delim_append (serializePresetLine_mem (hv p (by simp)))]
    cases hr : rest with
    | nil =>
      subst hr
      simp [SerializeStorage]
    | cons q qs =>
      subst hr
      rw [if_neg (fun hcon => serializeStorage_ne_nil q qs (List.isEmpty_iff.mp hcon))]
      have hax : getlineSplitAux '\n' (SerializeStorage (q :: qs)) [] =
          getlineSplit '\n' (SerializeStorage (q :: qs)) := by
        unfold getlineSplit
        rw [if_neg (fun hcon => serializeStorage_ne_nil q qs (List.isEmpty_iff.mp hcon))]
      rw [hax, ih (fun x hx => hv x (by simp [hx]))]
      simp

theorem foldParsedLines_map_eq_append
    (parse : Str → Option CustomPreset) (f : CustomPreset → Str)
    (g : CustomPreset → CustomPreset) :
    ∀ (ps acc : List CustomPreset),
      (∀ p ∈ ps, parse (f p) = some (g p)) →
      (∀ p ∈ ps, (g p).name = p.name) →
      ps.Pairwise (fun a b => a.name ≠ b.name) →
      (∀ p ∈ ps, ∀ q ∈ acc, q.name ≠ p.name) →
      foldParsedLines parse acc (ps.map f) = acc ++ ps.map g := by
  intro ps
  induction ps with
  | nil => intro acc _ _ _ _; simp [foldParsedLines]
  | cons p rest ih =>
    intro acc hparse hname hpair hdisj
    have hstep : foldParsedLines parse acc ((p :: rest).map f) =
        foldParsedLines parse (AddOrUpdatePreset acc (g p)) (rest.map f) := by
      rw [List.map_cons]
      unfold foldParsedLines
      rw [List.foldl_cons, hparse p (by simp)]
    rw [hstep]
    have hupd : AddOrUpdatePreset acc (g p) = acc ++ [g p] :=
      addOrUpdate_append_of_not_mem (fun q hq => by
        rw [hname p (by simp)]
        exact hdisj p (by simp) q hq)
    rw [hupd]
    have hpairs := List.pairwise_cons.mp hpair
    rw [ih (acc ++ [g p]) (fun q hq => hparse q (by simp [hq]))
      (fun q hq => hname q (by simp [hq])) hpairs.2
      (fun q hq r hr => by
        rcases List.mem_append.mp hr with hr1 | hr1
        · exact hdisj q (by simp [hq]) r hr1
        · have : r = g p := by simpa using hr1
          rw [this, hname p (by simp)]
          exact hpairs.1 q hq)]
    simp

/-- Every channel of the loaded color is within half a thousandth of the
saved one. -/
def ColorClose (a b : PresetPaintColor) : Prop :=
  |a.r - b.r| ≤ 1 / 2000 ∧ |a.g - b.g| ≤ 1 / 2000 ∧ |a.b - b.b| ≤ 1 / 2000

/-- The loaded record agrees with the saved one on every non-color field
and is channel-wise within the 3-decimal precision on both colors. -/
def PresetClose (l p : CustomPreset) : Prop :=
  l.name = p.name ∧ l.loadoutCode = p.loadoutCode ∧
    l.customization.carLabel = p.customization.carLabel ∧
    l.customization.decalLabel = p.customization.decalLabel ∧
    l.customization.wheelsLabel = p.customization.wheelsLabel ∧
    l.customization.paintFinishMatte = p.customization.paintFinishMatte ∧
    l.customization.paintFinishPearlescent = p.customization.paintFinishPearlescent ∧
    ColorClose l.customization.primaryColor p.customization.primaryColor ∧
    ColorClose l.customization.accentColor p.customization.accentColor

theorem colorClose_roundColor3 (c : PresetPaintColor) :
    ColorClose (roundColor3 c) c :=
  ⟨roundHalfUp_div_close c.r, roundHalfUp_div_close c.g, roundHalfUp_div_close c.b⟩

theorem presetClose_roundPreset3 (p : CustomPreset) :
    PresetClose (roundPreset3 p) p :=
  ⟨rfl, rfl, rfl, rfl, rfl, rfl, rfl,
    colorClose_roundColor3 p.customization.primaryColor,
    colorClose_roundColor3 p.customization.accentColor⟩

theorem load_of_save_content {ps : List CustomPreset}
    (hvalid : ∀ p ∈ ps, ValidPreset p)
    (hdist : ps.Pairwise (fun a b => a.name ≠ b.name)) :
    foldParsedLines ParseStorageLine [] (getlineSplit '\n' (SerializeStorage ps)) =
      ps.map roundPreset3 := by
  rw [getlineSplit_serializeStorage ps hvalid]
  rw [foldParsedLines_map_eq_append ParseStorageLine SerializePresetLine roundPreset3
    ps [] (fun p hp => parseStorageLine_serialize (hvalid p hp))
    (fun p _ => rfl) hdist (fun p _ q hq => absurd hq (List.not_mem_nil q))]
  simp

/-! ### Claim C1: save-then-load round trip -/

/-- C1 (amended, proved): for a collection of pairwise-distinctly-named
records whose name, code and label fields are trim-stable and free of `'|'`
and `'\n'`, whose name is non-empty and does not start with `'#'`, whose
code is non-empty, and whose color channels lie in [0,1], SaveToStorage
followed by LoadFromStorage reproduces the ordered collection with every
non-color field equal and every color channel rounded to the nearest
thousandth, hence within the 3-decimal serialization precision. -/
theorem save_then_load_round_trip (env : Env) (ps : List CustomPreset)
    (hdir : env.storageDirExists = true)
    (hw : env.storageOpenableForWrite = true)
    (hvalid : ∀ p ∈ ps, ValidPreset p)
    (hdist : ps.Pairwise (fun a b => a.name ≠ b.name)) :
    ∃ env2 : Env,
      SaveToStorage env ps = .ok (env2, ps, []) ∧
      LoadFromStorage env2 ps = .ok (env2, ps.map roundPreset3, []) ∧
      List.Forall₂ PresetClose (ps.map roundPreset3) ps := by
  refine ⟨{ env with storageFile := some (SerializeStorage ps) }, ?_, ?_, ?_⟩
  · unfold SaveToStorage EnsureStorageDirectory
    simp [hdir, hw]
  · unfold LoadFromStorage
    simp only []
    rw [load_of_save_content hvalid hdist]
  · rw [List.forall₂_map_left_iff, List.forall₂_same]
    exact fun p _ => presetClose_roundPreset3 p

/-- Concrete store for the C1 counterexample: one record whose name
contains the field delimiter, with non-empty name and code and default
in-range colors, satisfying the claim's stated precondition. -/
def cexPreset : CustomPreset := { name := strChars "a|b", loadoutCode := strChars "c" }

/-- A default environment: storage directory exists and is writable, no
storage file yet. -/
def cexEnv : Env := {}

/-- C1 counterexample: the record named `"a|b"` (non-empty name and code,
channels in [0,1]) does not survive a save/load cycle — the loaded
collection holds a single record named `"a"`, so the claim as stated (for
every collection of records with non-empty name/code and channels in
[0,1]) is false. -/
theorem save_then_load_not_round_trip :
    SaveToStorage cexEnv [cexPreset] =
      .ok ({ cexEnv with storageFile := some (SerializeStorage [cexPreset]) },
        [cexPreset], []) ∧
    (LoadFromStorage
        { cexEnv with storageFile := some (SerializeStorage [cexPreset]) }
        [cexPreset]).map (fun r => r.2.1.map (fun p => p.name)) =
      .ok [strChars "a"] ∧
    [strChars "a"] ≠ [cexPreset].map (fun p => p.name) := by
  refine ⟨by with_unfolding_all rfl, by with_unfolding_all rfl, by decide⟩

/-- Concrete valid record for the C1 witness. -/
def witPreset : CustomPreset := { name := strChars "A", loadoutCode := strChars "CODE" }

/-- C1 witness: the round-trip theorem applied to a concrete valid
one-record store. -/
theorem save_then_load_round_trip_witness :
    ∃ env2 : Env,
      SaveToStorage cexEnv [witPreset] = .ok (env2, [witPreset], []) ∧
      LoadFromStorage env2 [witPreset] = .ok (env2, [witPreset].map roundPreset3, []) ∧
      List.Forall₂ PresetClose ([witPreset].map roundPreset3) [witPreset] :=
  save_then_load_round_trip cexEnv [witPreset] rfl rfl
    (by
      intro p hp
      simp only [List.mem_singleton] at hp
      subst hp
      refine ⟨by decide, by decide, by decide, by decide, by decide, by decide,
        by decide, by decide, ?_, ?_⟩
      · exact ⟨by norm_num [witPreset], by norm_num [witPreset],
          by norm_num [witPreset], by norm_num [witPreset],
          by norm_num [witPreset], by norm_num [witPreset]⟩
      · exact ⟨by norm_num [witPreset], by norm_num [witPreset],
          by norm_num [witPreset], by norm_num [witPreset],
          by norm_num [witPreset], by norm_num [witPreset]⟩)
    (by simp)

/-! ### Claims C3 and C4: color token decoding -/

/-- One component of the specification's `decode`: a present component is
parsed (failure → 0), clamped below at 0, divided by 255 when above 1; a
missing component defaults to 0. -/
def decodeSpecComp (comps : List Str) (i : ℕ) : ℚ :=
  match comps[i]? with
  | some c => normalizeComponent c
  | none => 0

/-- The specification's `decode`: split the token on `','` (keeping every
field) and decode the first three components. -/
def decodeSpec (token : Str) : PresetPaintColor :=
  let comps := splitKeepAll ',' token
  ⟨decodeSpecComp comps 0, decodeSpecComp comps 1, decodeSpecComp comps 2⟩

theorem parseFloatModel_nil : parseFloatModel [] = none := rfl

theorem normalizeComponent_nil : normalizeComponent [] = 0 := by
  norm_num [normalizeComponent, parseFloatModel_nil, Option.getD_none]

theorem parseColorLoop_ge_three : ∀ (comps : List Str) (idx : ℕ), 3 ≤ idx →
    ∀ col, parseColorLoop comps idx col = col := by
  intro comps
  induction comps with
  | nil => intros; rfl
  | cons c cs ih =>
    intro idx hidx col
    rw [parseColorLoop]
    simp only [if_neg (by omega : ¬idx = 0), if_neg (by omega : ¬idx = 1),
      if_neg (by omega : ¬idx = 2)]
    exact ih (idx + 1) (by omega) col

theorem parseColorLoop_spec (comps : List Str) :
    parseColorLoop comps 0 ⟨0, 0, 0⟩ =
      ⟨decodeSpecComp comps 0, decodeSpecComp comps 1, decodeSpecComp comps 2⟩ := by
  match comps with
  | [] => rfl
  | [a] => rfl
  | [a, b] => rfl
  | [a, b, c] => rfl
  | a :: b :: c :: d :: rest =>
    calc parseColorLoop (a :: b :: c :: d :: rest) 0 ⟨0, 0, 0⟩
        = parseColorLoop (d :: rest) 3
            ⟨normalizeComponent a, normalizeComponent b, normalizeComponent c⟩ := rfl
      _ = ⟨normalizeComponent a, normalizeComponent b, normalizeComponent c⟩ :=
          parseColorLoop_ge_three (d :: rest) 3 (by omega) _
      _ = ⟨decodeSpecComp (a :: b :: c :: d :: rest) 0,
            decodeSpecComp (a :: b :: c :: d :: rest) 1,
            decodeSpecComp (a :: b :: c :: d :: rest) 2⟩ := rfl

theorem decodeSpecComp_append_nil (comps : List Str) (i : ℕ) :
    decodeSpecComp (comps ++ [[]]) i = decodeSpecComp comps i := by
  unfold decodeSpecComp
  rcases Nat.lt_or_ge i comps.length with h | h
  · rw [List.getElem?_append, if_pos h]
  · rw [List.getElem?_append, if_neg (by omega), List.getElem?_eq_none h]
    rcases Nat.eq_or_lt_of_le h with heq | hlt
    · rw [← heq, Nat.sub_self]
      simpa using normalizeComponent_nil
    · rw [List.getElem?_eq_none (by simp only [List.length_singleton]; omega)]

/-- C4: for every input token, the getline-loop decoder of the source
equals the specification's decode: split on `','`, each of up to three
present components parsed with failure defaulting to 0, negative values
clamped to 0, values above 1 divided by 255, missing components 0. -/
theorem parseColorToken_eq_decodeSpec : ∀ token : Str,
    ParseColorToken token = decodeSpec token := by
  intro token
  simp only [ParseColorToken, decodeSpec]
  by_cases htok : token = []
  · subst htok
    have h1 : parseColorLoop (getlineSplit ',' []) 0 ⟨0, 0, 0⟩ = ⟨0, 0, 0⟩ := rfl
    have h2 : decodeSpecComp (splitKeepAll ',' []) 0 = 0 := by
      show normalizeComponent [] = 0
      exact normalizeComponent_nil
    have h3 : decodeSpecComp (splitKeepAll ',' []) 1 = 0 := rfl
    have h4 : decodeSpecComp (splitKeepAll ',' []) 2 = 0 := rfl
    rw [h1, h2, h3, h4]
  · rw [splitKeepAll_eq_getlineSplit ',' token htok, parseColorLoop_spec]
    by_cases hlast : token.getLast? = some ','
    · rw [if_pos hlast, decodeSpecComp_append_nil, decodeSpecComp_append_nil,
        decodeSpecComp_append_nil]
    · rw [if_neg hlast, List.append_nil]

/-- C3 (amended): all three channels of every parsed color are bounded
below by 0, and they lie in [0,1] whenever every component's parsed value
is at most 255 (as with every 0-255 or 0-1 scale token); a component
parsing above 255 drives a channel above 1. -/
theorem parseColorToken_channels (token : Str)
    (h : ∀ comp ∈ getlineSplit ',' token, (parseFloatModel comp).getD 0 ≤ 255) :
    ColorIn01 (ParseColorToken token) := by
  unfold ParseColorToken
  have hbase : (0:ℚ) ≤ ({} : PresetPaintColor).r ∧ ({} : PresetPaintColor).r ≤ 1 := by
    constructor <;> norm_num
  have := parseColorLoop_pred (fun q => 0 ≤ q ∧ q ≤ 1) (getlineSplit ',' token) 0 {}
    ⟨⟨by norm_num, by norm_num⟩, ⟨by norm_num, by norm_num⟩, ⟨by norm_num, by norm_num⟩⟩
    (fun comp hc =>
      ⟨normalizeComponent_nonneg comp, normalizeComponent_le_one (h comp hc)⟩)
  obtain ⟨⟨a1, a2⟩, ⟨b1, b2⟩, ⟨c1, c2⟩⟩ := this
  exact ⟨a1, a2, b1, b2, c1, c2⟩

/-- C3 counterexample: the token `"1000"` parses to a color whose red
channel is 1000/255 > 1, so not every construction or parse path yields
channels in [0,1]. -/
theorem parseColorToken_not_in01 :
    ¬ColorIn01 (ParseColorToken (strChars "1000")) := by
  intro hcon
  have hr : (ParseColorToken (strChars "1000")).r = 200 / 51 := by
    with_unfolding_all rfl
  have h2 := hcon.2.1
  rw [hr] at h2
  norm_num at h2

/-- C3 witness: the amended bound theorem applied at the token
`"128,0,255"`, whose components all parse at or below 255. -/
theorem parseColorToken_channels_witness :
    ColorIn01 (ParseColorToken (strChars "128,0,255")) :=
  parseColorToken_channels (strChars "128,0,255") (by
    have hsplit : getlineSplit ',' (strChars "128,0,255") =
        [strChars "128", strChars "0", strChars "255"] := by decide
    intro comp hc
    rw [hsplit] at hc
    simp only [List.mem_cons, List.not_mem_nil, or_false] at hc
    rcases hc with rfl | rfl | rfl
    · rw [(by with_unfolding_all rfl : parseFloatModel (strChars "128") = some 128)]
      norm_num
    · rw [(by with_unfolding_all rfl : parseFloatModel (strChars "0") = some 0)]
      norm_num
    · rw [(by with_unfolding_all rfl : parseFloatModel (strChars "255") = some 255)]
      norm_num)

/-! ### Claim C6: line tokenization -/

/-- C6 (amended): the `std::getline`-based tokenizer returns the fields in
order and preserves empty fields between consecutive delimiters, but when
the line ends with the delimiter the trailing empty field is dropped (the
final getline at end-of-input fails), and the empty line yields no fields:
the full field split equals the tokenizer's output plus exactly one
trailing empty field in that case. -/
theorem tokenizeLine_vs_full_split : ∀ line : Str,
    TokenizeLine [] = [] ∧
    (line ≠ [] → splitKeepAll '|' line =
      TokenizeLine line ++ (if line.getLast? = some '|' then [[]] else [])) :=
  fun line => ⟨rfl, fun h => splitKeepAll_eq_getlineSplit '|' line h⟩

/-- C6 counterexample: on the line `"a|"` the tokenizer yields `["a"]`,
not the claim's `["a", ""]` with the trailing empty field preserved. -/
theorem tokenizeLine_drops_trailing_empty :
    TokenizeLine (strChars "a|") = [strChars "a"] ∧
    splitKeepAll '|' (strChars "a|") = [strChars "a", []] ∧
    TokenizeLine (strChars "a|") ≠ splitKeepAll '|' (strChars "a|") :=
  ⟨by decide, by decide, by decide⟩

/-! ### Claim C7: the vanilla-format line split -/

theorem findFirstIdx_some {p : Char → Bool} : ∀ (l : Str) (i : ℕ),
    findFirstIdx p l = some i →
      i < l.length ∧ ∀ x, l[i]? = some x → p x = true := by
  intro l
  induction l with
  | nil => intro i h; simp [findFirstIdx] at h
  | cons c cs ih =>
    intro i h
    rw [findFirstIdx] at h
    by_cases hc : p c
    · rw [if_pos hc] at h
      cases h
      exact ⟨by simp, fun x hx => by
        simp only [List.getElem?_cons_zero, Option.some.injEq] at hx
        rw [← hx]
        exact hc⟩
    · rw [if_neg hc] at h
      cases hcs : findFirstIdx p cs with
      | none => rw [hcs] at h; simp at h
      | some j =>
        rw [hcs] at h
        simp only [Option.map_some', Option.some.injEq] at h
        obtain ⟨hj, hx⟩ := ih j hcs
        rw [← h]
        refine ⟨by simp; omega, fun x hgx => ?_⟩
        rw [List.getElem?_cons_succ] at hgx
        exact hx x hgx

/-- The specification's reading of the vanilla split: the record name is
everything before the last maximal run of tab/space characters, the
loadout code everything after that run. -/
def lastRunSplit (line : Str) : Option (Str × Str) :=
  match findFirstIdx isNameDelim line.reverse with
  | none => none
  | some i =>
    let rev := line.reverse
    some (((rev.drop i).dropWhile isNameDelim).reverse, (rev.take i).reverse)

/-- The specification's vanilla-format line parser: trim, skip blank and
comment lines, split at the last run of tab/space characters, trim both
halves, discard the line when either half is empty. -/
def ParseVanillaLineSpec (raw : Str) : Option CustomPreset :=
  let line := TrimWhitespace raw
  if line.isEmpty then none
  else if line.head? = some '#' then none
  else
    match lastRunSplit line with
    | none => none
    | some (before, after) =>
      let name := TrimWhitespace before
      let code := TrimWhitespace after
      if name.isEmpty || code.isEmpty then none
      else some { name := name, loadoutCode := code }

theorem isTrimWs_of_isNameDelim {c : Char} (h : isNameDelim c = true) :
    isTrimWs c = true := by
  unfold isNameDelim at h
  rcases Bool.or_eq_true_iff.mp h with h1 | h1
  · rw [decide_eq_true_eq.mp h1]; decide
  · rw [decide_eq_true_eq.mp h1]; decide

theorem trim_dropWhile_nameDelim_reverse (m : Str) :
    TrimWhitespace ((m.dropWhile isNameDelim).reverse) = TrimWhitespace m.reverse := by
  conv_rhs => rw [← List.takeWhile_append_dropWhile isNameDelim m]
  rw [List.reverse_append]
  rw [trimWhitespace_append_ws (fun c hc =>
    isTrimWs_of_isNameDelim (List.mem_takeWhile_imp (List.mem_reverse.mp hc)))]

/-- C7: the source's split at the last single tab/space character, with
both halves trimmed, coincides with the specification's split at the last
run of tab/space characters for every line; in particular the two-space
line `"Team GT  RLCS-AAAA-BBBB-CCCC-DDDD"` yields the name `"Team GT"`
(internal space preserved) and the code `"RLCS-AAAA-BBBB-CCCC-DDDD"`, and
lines without a delimiter or with an empty half are discarded in both
readings. -/
theorem parseVanillaLine_eq_spec :
    (∀ raw : Str, ParseVanillaLine raw = ParseVanillaLineSpec raw) ∧
    ParseVanillaLine (strChars "Team GT  RLCS-AAAA-BBBB-CCCC-DDDD") =
      some { name := strChars "Team GT",
             loadoutCode := strChars "RLCS-AAAA-BBBB-CCCC-DDDD" } := by
  constructor
  · intro raw
    simp only [ParseVanillaLine, ParseVanillaLineSpec, findLastDelimIdx, lastRunSplit]
    by_cases h1 : (TrimWhitespace raw).isEmpty
    · rw [if_pos h1, if_pos h1]
    · rw [if_neg h1, if_neg h1]
      by_cases h2 : (TrimWhitespace raw).head? = some '#'
      · rw [if_pos h2, if_pos h2]
      · rw [if_neg h2, if_neg h2]
        cases hidx : findFirstIdx isNameDelim (TrimWhitespace raw).reverse with
        | none => rfl
        | some i =>
          obtain ⟨hilt, hp⟩ := findFirstIdx_some _ i hidx
          rw [List.length_reverse] at hilt
          set line := TrimWhitespace raw with hline
          have hlen : i < line.length := hilt
          have e2 : (line.reverse.take i).reverse =
              line.drop (line.length - 1 - i + 1) := by
            rw [List.take_reverse, List.reverse_reverse]
            congr 1
            omega
          have hgetc : ∀ x, line.reverse[i]? = some x → isNameDelim x = true := hp
          have hlen2 : i < line.reverse.length := by simpa using hlen
          have hdropi : line.reverse.drop i =
              line.reverse.get ⟨i, hlen2⟩ :: line.reverse.drop (i + 1) :=
            List.drop_eq_getElem_cons hlen2
          have hpi : isNameDelim (line.reverse.get ⟨i, hlen2⟩) = true :=
            hgetc _ (List.getElem?_eq_getElem hlen2)
          have e1 : TrimWhitespace (((line.reverse.drop i).dropWhile isNameDelim).reverse) =
              TrimWhitespace (line.take (line.length - 1 - i)) := by
            rw [hdropi, List.dropWhile_cons, if_pos hpi,
              trim_dropWhile_nameDelim_reverse, List.drop_reverse,
              List.reverse_reverse]
            congr 2
            omega
          dsimp only
          rw [e1, e2]
  · with_unfolding_all rfl

/-! ### Claim C8: upsert semantics -/

theorem findPresetIndex_set {s : List CustomPreset} {nm : Str} {p : CustomPreset}
    (hlt : FindPresetIndex s nm < s.length) (hn : p.name = nm) :
    FindPresetIndex (s.set (FindPresetIndex s nm) p) nm = FindPresetIndex s nm := by
  induction s with
  | nil => simp [FindPresetIndex] at hlt
  | cons q rest ih =>
    by_cases hq : q.name = nm
    · rw [FindPresetIndex, if_pos hq, List.set_cons_zero, FindPresetIndex, if_pos hn]
    · rw [FindPresetIndex, if_neg hq] at hlt ⊢
      rw [List.set_cons_succ, FindPresetIndex, if_neg hq]
      rw [ih (by simpa using hlt)]

theorem findPresetIndex_append {s : List CustomPreset} {nm : Str} {p : CustomPreset}
    (h : ∀ q ∈ s, q.name ≠ nm) (hn : p.name = nm) :
    FindPresetIndex (s ++ [p]) nm = s.length := by
  induction s with
  | nil => simp [FindPresetIndex, hn]
  | cons q rest ih =>
    rw [List.cons_append, FindPresetIndex, if_neg (h q (by simp)),
      ih (fun r hr => h r (by simp [hr]))]
    simp

/-- C8: upserting two records that share a name leaves the collection size
after the second call equal to the size after the first, stores the second
record's field values, and keeps the record at the position of the first
insertion (the first call's index is still where the name is found, the
second call replaces exactly that position). -/
theorem addOrUpdate_twice (s : List CustomPreset) (p1 p2 : CustomPreset)
    (h : p1.name = p2.name) :
    (AddOrUpdatePreset (AddOrUpdatePreset s p1) p2).length =
      (AddOrUpdatePreset s p1).length ∧
    FindPresetIndex (AddOrUpdatePreset s p1) p1.name <
      (AddOrUpdatePreset s p1).length ∧
    AddOrUpdatePreset (AddOrUpdatePreset s p1) p2 =
      (AddOrUpdatePreset s p1).set
        (FindPresetIndex (AddOrUpdatePreset s p1) p1.name) p2 ∧
    (AddOrUpdatePreset (AddOrUpdatePreset s p1) p2)[
      FindPresetIndex (AddOrUpdatePreset s p1) p1.name]? = some p2 := by
  have hlt : FindPresetIndex (AddOrUpdatePreset s p1) p1.name <
      (AddOrUpdatePreset s p1).length := by
    unfold AddOrUpdatePreset
    by_cases hi : s.length ≤ FindPresetIndex s p1.name
    · rw [if_pos hi]
      have hnm : ∀ q ∈ s, q.name ≠ p1.name := by
        intro q hq hcon
        have hc := (findPresetIndex_lt_iff s p1.name).mpr ⟨q, hq, hcon⟩
        omega
      rw [findPresetIndex_append hnm rfl]
      simp
    · push_neg at hi
      rw [if_neg (by omega), findPresetIndex_set hi rfl]
      simpa using hi
  have hidx2 : FindPresetIndex (AddOrUpdatePreset s p1) p2.name =
      FindPresetIndex (AddOrUpdatePreset s p1) p1.name := by rw [← h]
  have hupd2 : AddOrUpdatePreset (AddOrUpdatePreset s p1) p2 =
      (AddOrUpdatePreset s p1).set
        (FindPresetIndex (AddOrUpdatePreset s p1) p1.name) p2 := by
    conv_lhs => rw [AddOrUpdatePreset]
    rw [hidx2, if_neg (by omega)]
  refine ⟨?_, hlt, hupd2, ?_⟩
  · rw [hupd2, List.length_set]
  · rw [hupd2, List.getElem?_set, if_pos rfl, if_pos hlt]

/-- First record for the C8 witness. -/
def upsertP1 : CustomPreset := { name := strChars "A", loadoutCode := strChars "X" }

/-- Second record for the C8 witness, sharing the first one's name. -/
def upsertP2 : CustomPreset := { name := strChars "A", loadoutCode := strChars "Y" }

/-- C8 witness: the double-upsert theorem at two concrete records sharing
the name `"A"`, starting from the empty store. -/
theorem addOrUpdate_twice_witness :
    (AddOrUpdatePreset (AddOrUpdatePreset [] upsertP1) upsertP2).length =
      (AddOrUpdatePreset [] upsertP1).length ∧
    FindPresetIndex (AddOrUpdatePreset [] upsertP1) upsertP1.name <
      (AddOrUpdatePreset [] upsertP1).length ∧
    AddOrUpdatePreset (AddOrUpdatePreset [] upsertP1) upsertP2 =
      (AddOrUpdatePreset [] upsertP1).set
        (FindPresetIndex (AddOrUpdatePreset [] upsertP1) upsertP1.name) upsertP2 ∧
    (AddOrUpdatePreset (AddOrUpdatePreset [] upsertP1) upsertP2)[
      FindPresetIndex (AddOrUpdatePreset [] upsertP1) upsertP1.name]? = some upsertP2 :=
  addOrUpdate_twice [] upsertP1 upsertP2 rfl

/-! ### Claim C5: SaveToStorage error handling -/

/-- C5 (amended): whenever the storage directory exists, is creatable, or
has an empty parent path, SaveToStorage completes without raising: a failed
open of the storage file is reported only via the log and leaves the
previous file content and the in-memory collection unchanged (the caller
may retry); a successful open rewrites the file.  (When the directory is
missing and uncreatable, `create_directories` throws — see the
counterexample.) -/
theorem saveToStorage_error_handling (env : Env) (ps : List CustomPreset)
    (h : env.storageParentEmpty = true ∨ env.storageDirExists = true ∨
      env.storageDirCreatable = true) :
    ∃ env2 logs, SaveToStorage env ps = .ok (env2, ps, logs) ∧
      (env.storageOpenableForWrite = false →
        env2.storageFile = env.storageFile ∧
        logs = ["ExpandedPresets: Failed to open storage file for writing."]) ∧
      (env.storageOpenableForWrite = true →
        env2.storageFile = some (SerializeStorage ps) ∧ logs = []) := by
  have hE : ∃ envE, EnsureStorageDirectory env = .ok envE ∧
      envE.storageFile = env.storageFile ∧
      envE.storageOpenableForWrite = env.storageOpenableForWrite := by
    unfold EnsureStorageDirectory
    by_cases hc : (!env.storageParentEmpty && !env.storageDirExists) = true
    · rw [if_pos hc]
      have hcr : env.storageDirCreatable = true := by
        rcases h with h | h | h
        · simp [h] at hc
        · simp [h] at hc
        · exact h
      rw [if_pos hcr]
      exact ⟨_, rfl, rfl, rfl⟩
    · rw [if_neg hc]
      exact ⟨env, rfl, rfl, rfl⟩
  obtain ⟨envE, hE1, hE2, hE3⟩ := hE
  unfold SaveToStorage
  rw [hE1]
  dsimp only
  by_cases hw : env.storageOpenableForWrite = true
  · rw [if_neg (by simp [hE3, hw])]
    refine ⟨_, [], rfl, fun hcon => ?_, fun _ => ⟨rfl, rfl⟩⟩
    rw [hw] at hcon
    cases hcon
  · have hwf : env.storageOpenableForWrite = false := Bool.eq_false_iff.mpr hw
    rw [if_pos (by simp [hE3, hwf])]
    exact ⟨envE, _, rfl, fun _ => ⟨hE2, rfl⟩, fun hcon => by rw [hwf] at hcon; cases hcon⟩

/-- Environment for the C5 counterexample: the storage directory is
missing, its parent path is non-empty, and it cannot be created. -/
def badEnv : Env :=
  { storageParentEmpty := false, storageDirExists := false,
    storageDirCreatable := false }

/-- C5 counterexample: with a missing, uncreatable storage directory,
SaveToStorage does not complete — the plain `create_directories` overload
throws across the public boundary and nothing is logged, so the claim as
stated (never raises for every store state) is false. -/
theorem saveToStorage_raises :
    SaveToStorage badEnv [] = .error .createDirectoriesFailed := rfl

/-- C5 witness: the amended theorem at a concrete environment whose
storage directory exists. -/
theorem saveToStorage_error_handling_witness :
    ∃ env2 logs, SaveToStorage cexEnv [] = .ok (env2, [], logs) ∧
      (cexEnv.storageOpenableForWrite = false →
        env2.storageFile = cexEnv.storageFile ∧
        logs = ["ExpandedPresets: Failed to open storage file for writing."]) ∧
      (cexEnv.storageOpenableForWrite = true →
        env2.storageFile = some (SerializeStorage []) ∧ logs = []) :=
  saveToStorage_error_handling cexEnv [] (Or.inr (Or.inl rfl))

/-! ### Claim C9: the destructive vanilla import -/

/-- C9: RefreshFromVanillaPresets first clears the store — its result does
not depend on the prior store at all — and then upserts only the valid
lines of the vanilla file, so every record afterwards comes from a line of
that file and every prior record absent from it is gone; when the vanilla
file is missing (or its path empty) it logs a diagnostic and leaves the
store empty, and likewise when the file does not open. -/
theorem refreshFromVanilla_spec (env : Env) (prior : List CustomPreset) :
    RefreshFromVanillaPresets env prior = RefreshFromVanillaPresets env [] ∧
    ((env.vanillaPathEmpty = true ∨ env.vanillaExists = false) →
      RefreshFromVanillaPresets env prior =
        ([], ["ExpandedPresets: Could not find vanilla presets.data file to import presets."])) ∧
    (∀ r ∈ (RefreshFromVanillaPresets env prior).1,
      ∃ line ∈ getlineSplit '\n' env.vanillaContent,
        ParseVanillaLine line = some r) := by
  refine ⟨rfl, ?_, ?_⟩
  · intro hcase
    unfold RefreshFromVanillaPresets
    rcases hcase with h | h
    · rw [if_pos (by simp [h])]
    · rw [if_pos (by simp [h])]
  · intro r hr
    unfold RefreshFromVanillaPresets at hr
    by_cases hc : (env.vanillaPathEmpty || !env.vanillaExists) = true
    · rw [if_pos hc] at hr
      simp at hr
    · rw [if_neg hc] at hr
      by_cases ho : (!env.vanillaOpenable) = true
      · rw [if_pos ho] at hr
        simp at hr
      · rw [if_neg ho] at hr
        rcases mem_foldParsedLines hr with h1 | h1
        · simp at h1
        · exact h1

/-! ### Claim C10: loaded fields are whitespace-trimmed -/

/-- Every user-text field of the record is trim-stable: no leading or
trailing space, tab, carriage return or newline. -/
def TrimmedFields (p : CustomPreset) : Prop :=
  IsTrimmed p.name ∧ IsTrimmed p.loadoutCode ∧
    IsTrimmed p.customization.carLabel ∧ IsTrimmed p.customization.decalLabel ∧
    IsTrimmed p.customization.wheelsLabel

theorem applyStorageTokens_trimmed (tokens : List Str) :
    TrimmedFields (ApplyStorageTokens tokens) := by
  unfold TrimmedFields ApplyStorageTokens
  refine ⟨isTrimmed_trimWhitespace _, isTrimmed_trimWhitespace _, ?_, ?_, ?_⟩ <;>
    dsimp only <;> split <;>
    first
      | exact isTrimmed_trimWhitespace _
      | decide

theorem parseStorageLine_trimmed {raw : Str} {r : CustomPreset}
    (h : ParseStorageLine raw = some r) : TrimmedFields r := by
  unfold ParseStorageLine at h
  by_cases h1 : (TrimWhitespace raw).isEmpty
  · rw [if_pos h1] at h
    cases h
  · rw [if_neg h1] at h
    by_cases h2 : (TrimWhitespace raw).head? = some '#'
    · rw [if_pos h2] at h
      cases h
    · rw [if_neg h2] at h
      by_cases h3 : (TokenizeLine (TrimWhitespace raw)).length < 2
      · rw [if_pos h3] at h
        cases h
      · rw [if_neg h3] at h
        cases h
        exact applyStorageTokens_trimmed _

theorem parseVanillaLine_trimmed {raw : Str} {r : CustomPreset}
    (h : ParseVanillaLine raw = some r) : TrimmedFields r := by
  unfold ParseVanillaLine at h
  by_cases h1 : (TrimWhitespace raw).isEmpty
  · rw [if_pos h1] at h
    cases h
  · rw [if_neg h1] at h
    by_cases h2 : (TrimWhitespace raw).head? = some '#'
    · rw [if_pos h2] at h
      cases h
    · rw [if_neg h2] at h
      cases hidx : findLastDelimIdx (TrimWhitespace raw) with
      | none => rw [hidx] at h; cases h
      | some pos =>
        rw [hidx] at h
        dsimp only at h
        by_cases h3 : ((TrimWhitespace ((TrimWhitespace raw).take pos)).isEmpty ||
            (TrimWhitespace ((TrimWhitespace raw).drop (pos + 1))).isEmpty) = true
        · rw [if_pos h3] at h
          cases h
        · rw [if_neg h3] at h
          cases h
          exact ⟨isTrimmed_trimWhitespace _, isTrimmed_trimWhitespace _,
            (by decide : IsTrimmed (strChars "Octane")),
            (by decide : IsTrimmed (strChars "None")),
            (by decide : IsTrimmed (strChars "OEM"))⟩

theorem saveToStorage_presets {env : Env} {ps : List CustomPreset} {e2 : Env}
    {ps2 : List CustomPreset} {l : List String}
    (h : SaveToStorage env ps = .ok (e2, ps2, l)) : ps2 = ps := by
  unfold SaveToStorage at h
  cases hE : EnsureStorageDirectory env with
  | error e => rw [hE] at h; cases h
  | ok env2 =>
    rw [hE] at h
    dsimp only at h
    by_cases hw : (!env2.storageOpenableForWrite) = true
    · rw [if_pos hw] at h
      cases h
      rfl
    · rw [if_neg hw] at h
      cases h
      rfl

/-- C10: every record produced by LoadFromStorage (either from the storage
file or through the vanilla fallback) and every record produced by
RefreshFromVanillaPresets has its name, loadout code and the three labels
trim-stable — each of these fields passes through the whitespace-trimming
primitive (or is a trim-stable default), so surrounding whitespace in a
stored field does not survive a load. -/
theorem loaded_fields_trimmed :
    (∀ (env : Env) (prior : List CustomPreset) (env2 : Env)
      (ps : List CustomPreset) (logs : List String),
      LoadFromStorage env prior = .ok (env2, ps, logs) →
      ∀ r ∈ ps, TrimmedFields r) ∧
    (∀ (env : Env) (prior : List CustomPreset),
      ∀ r ∈ (RefreshFromVanillaPresets env prior).1, TrimmedFields r) := by
  have hrefresh : ∀ (env : Env) (prior : List CustomPreset),
      ∀ r ∈ (RefreshFromVanillaPresets env prior).1, TrimmedFields r := by
    intro env prior r hr
    unfold RefreshFromVanillaPresets at hr
    by_cases hc : (env.vanillaPathEmpty || !env.vanillaExists) = true
    · rw [if_pos hc] at hr
      simp at hr
    · rw [if_neg hc] at hr
      by_cases ho : (!env.vanillaOpenable) = true
      · rw [if_pos ho] at hr
        simp at hr
      · rw [if_neg ho] at hr
        rcases mem_foldParsedLines hr with h1 | ⟨line, -, hsome⟩
        · simp at h1
        · exact parseVanillaLine_trimmed hsome
  refine ⟨?_, hrefresh⟩
  intro env prior env2 ps logs h r hr
  unfold LoadFromStorage at h
  cases hsf : env.storageFile with
  | none =>
    rw [hsf] at h
    dsimp only at h
    cases hsave : SaveToStorage env (RefreshFromVanillaPresets env []).1 with
    | error e => rw [hsave] at h; cases h
    | ok res =>
      obtain ⟨e2, ps2, l2⟩ := res
      rw [hsave] at h
      dsimp only at h
      cases h
      have hps := saveToStorage_presets hsave
      rw [hps] at hr
      exact hrefresh env [] r hr
  | some content =>
    rw [hsf] at h
    cases h
    rcases mem_foldParsedLines hr with h1 | ⟨line, -, hsome⟩
    · simp at h1
    · exact parseStorageLine_trimmed hsome

/-! ### Claim C2: importFromFile (spec-modelled) -/

/-- C2 (spec-modelled): the import applies each valid persisted-format
record of the catalog file against the evolving store — a record whose
name already exists is applied (replaced in place, counted) only when
overwriting, and is otherwise skipped unchanged and uncounted; a record
with a fresh name is always appended and counted — the returned count is
the fold's count of applied records, and a missing file logs and returns
0 with the store unchanged. -/
theorem importFromFile_spec (env : Env) (ps : List CustomPreset) (ow : Bool) :
    (env.catalogFile = none →
      ImportFromFile env ps ow =
        (ps, 0, ["ExpandedPresets: Catalog file not found."])) ∧
    (∀ (s : List CustomPreset) (n : ℕ) (r : CustomPreset),
      ((∃ q ∈ s, q.name = r.name) → ow = false → ImportStep ow (s, n) r = (s, n)) ∧
      ((∃ q ∈ s, q.name = r.name) → ow = true →
        ImportStep ow (s, n) r = (s.set (FindPresetIndex s r.name) r, n + 1)) ∧
      ((∀ q ∈ s, q.name ≠ r.name) → ImportStep ow (s, n) r = (s ++ [r], n + 1))) ∧
    (∀ content, env.catalogFile = some content →
      ImportFromFile env ps ow =
        ((((getlineSplit '\n' content).filterMap ParseStorageLine).foldl
            (ImportStep ow) (ps, 0)).1,
         (((getlineSplit '\n' content).filterMap ParseStorageLine).foldl
            (ImportStep ow) (ps, 0)).2, [])) := by
  refine ⟨?_, ?_, ?_⟩
  · intro hnone
    unfold ImportFromFile
    rw [hnone]
  · intro s n r
    have hstep_lt : (∃ q ∈ s, q.name = r.name) →
        FindPresetIndex s r.name < s.length :=
      (findPresetIndex_lt_iff s r.name).mpr
    refine ⟨?_, ?_, ?_⟩
    · intro hex how
      unfold ImportStep
      rw [if_pos (hstep_lt hex), how]
      rfl
    · intro hex how
      unfold ImportStep
      rw [if_pos (hstep_lt hex), how]
      rfl
    · intro hfresh
      unfold ImportStep
      rw [if_neg (by
        intro hcon
        obtain ⟨q, hq, hqn⟩ := (findPresetIndex_lt_iff s r.name).mp hcon
        exact hfresh q hq hqn)]
  · intro content hsome
    unfold ImportFromFile
    rw [hsome]

example : TrimWhitespace (strChars "  a b\t ") = strChars "a b" := by decide
example : getlineSplit '|' (strChars "a||b|") = [strChars "a", [], strChars "b"] := by decide
example : getlineSplit '|' [] = [] := by decide
example : splitKeepAll '|' (strChars "a|") = [strChars "a", []] := by decide
example : parseFloatModel (strChars "128") = some 128 := by with_unfolding_all rfl
example : parseFloatModel (strChars "0.502") = some (251/500) := by with_unfolding_all rfl
example : parseFloatModel (strChars "abc") = none := by decide
example : parseFloatModel (strChars "-1.5x") = some (-3/2) := by with_unfolding_all rfl
example : ParseColorToken (strChars "128,0,255") = ⟨128/255, 0, 1⟩ := by with_unfolding_all rfl
example : ParseColorToken (strChars "-1,2,abc") = ⟨0, 2/255, 0⟩ := by with_unfolding_all rfl
example : ParseColorToken (strChars "1000") = ⟨200/51, 0, 0⟩ := by with_unfolding_all rfl
example : fmtFixed3 (251/500) = strChars "0.502" := by with_unfolding_all rfl
example : fmtFixed3 1 = strChars "1.000" := by with_unfolding_all rfl
example : SerializeColorToken ⟨9/50, 9/50, 9/50⟩ = strChars "0.180,0.180,0.180" := by
  with_unfolding_all rfl
example :
    ParseVanillaLine (strChars "Team GT  RLCS-AAAA-BBBB-CCCC-DDDD") =
      some { name := strChars "Team GT", loadoutCode := strChars "RLCS-AAAA-BBBB-CCCC-DDDD" } := by
  with_unfolding_all rfl
